import Mathlib

/-!
Verification of the distance-vector routing node implemented in src/dvnode.py.

The node keeps an N-by-N distance table (NUM_NODES = N), a predecessor list,
and reacts to three triggers: construction, receipt of a neighbour's distance
vector, and a link-cost change.  Costs are numeric-or-infinite; the program
manipulates integer link costs (`new_cost: int`) and `math.inf`, so we model
them as integers extended with an infinity element (WithTop Int), where inf
arithmetic (inf + x = inf, x < inf) matches Python float infinity on the
values the program manipulates.

Python lists become Lean lists.  In-contract indexing (indices below N) is
modelled with List.getD / List.set; a second, strict model of the receive
handler (updatePy and friends) reproduces Python indexing semantics exactly
(IndexError as Option.none, negative-index wrap-around) for the claims about
malformed advertisements.
-/

namespace DVNode

/-- Costs: numeric-or-infinity; integers with an adjoined top element in
the model (the program's costs are Python ints or `math.inf`, and `⊤`
plays the role of `math.inf`). -/
abbrev Cost := WithTop ℤ

/-- An advertisement message, as built by `Packet(src, dest, dist_vector)` in
dvnode.py.  Modelled from the spec: the `Packet` class itself is defined in
`dvsim.py`, which is not part of src/; per the spec (section 3) an
Advertisement is an immutable triple whose vector field is a full snapshot
fixed at construction, which an immutable Lean structure realises. -/
structure Packet where
  src : ℕ
  dest : ℕ
  vec : List Cost
deriving DecidableEq

/-- The state of `Node` from dvnode.py: `nodeid`, `dist_table` and
`predecessors`.  The simulator reference is represented by passing the
node's own link-cost row (`simulator.cost[nodeid]`) to each operation. -/
structure Node where
  nodeid : ℕ
  dist_table : List (List Cost)
  predecessors : List (Option ℕ)
deriving DecidableEq

/-- Read `t[r][c]` of the distance table (in-contract indexing; out-of-range
reads default to `⊤`, the content of never-received rows). -/
def tableGet (t : List (List Cost)) (r c : ℕ) : Cost :=
  (t.getD r []).getD c ⊤

/-- Write `t[r][c] := x` (in-contract indexing). -/
def tableSet (t : List (List Cost)) (r c : ℕ) (x : Cost) : List (List Cost) :=
  t.set r ((t.getD r []).set c x)

/-- `Node.get_link_cost`: `self.simulator.cost[self.nodeid][other]`; `cost`
is the node's own cost row. -/
def get_link_cost (cost : List Cost) (other : ℕ) : Cost :=
  cost.getD other ⊤

/-- `Node.get_dist_vector`: `self.dist_table[self.nodeid]`. -/
def get_dist_vector (s : Node) : List Cost :=
  s.dist_table.getD s.nodeid []

/-- `Node.get_predecessor`: `self.predecessors[other]`. -/
def get_predecessor (s : Node) (other : ℕ) : Option ℕ :=
  s.predecessors.getD other none

/-- One iteration of the inner loop of `Node.update_helper`:
`new_cost = self.get_link_cost(v) + self.dist_table[v][dest]`, and if
`new_cost < self.get_dist_vector()[dest]` both the own-row entry and the
predecessor entry are overwritten.  The state `tp` carries the distance
table and the predecessor list. -/
def relaxStep (cost : List Cost) (nodeid dest : ℕ)
    (tp : List (List Cost) × List (Option ℕ)) (v : ℕ) :
    List (List Cost) × List (Option ℕ) :=
  if get_link_cost cost v + tableGet tp.1 v dest < tableGet tp.1 nodeid dest then
    (tableSet tp.1 nodeid dest (get_link_cost cost v + tableGet tp.1 v dest),
     tp.2.set dest (some v))
  else tp

/-- One iteration of the outer loop of `Node.update_helper`: skip
`dest == self.nodeid`, otherwise set the own-row entry to `inf` and run the
inner loop over all `v in range(NUM_NODES)`. -/
def relaxDest (N : ℕ) (cost : List Cost) (nodeid : ℕ)
    (tp : List (List Cost) × List (Option ℕ)) (dest : ℕ) :
    List (List Cost) × List (Option ℕ) :=
  if dest = nodeid then tp
  else (List.range N).foldl (relaxStep cost nodeid dest)
    (tableSet tp.1 nodeid dest ⊤, tp.2)

/-- The full relaxation pass of `Node.update_helper`: the outer loop over
`dest in range(NUM_NODES)`. -/
def relaxAll (N : ℕ) (cost : List Cost) (nodeid : ℕ)
    (tp : List (List Cost) × List (Option ℕ)) :
    List (List Cost) × List (Option ℕ) :=
  (List.range N).foldl (relaxDest N cost nodeid) tp

/-- The broadcast loop shared by `Node.__init__` and `Node.update_helper`:
`for i in range(NUM_NODES): if i != nodeid and link_cost(i) != inf:
to_link_layer(Packet(nodeid, i, vec))`. -/
def bcast (N : ℕ) (nodeid : ℕ) (cost : List Cost) (vec : List Cost) :
    List Packet :=
  (List.range N).filterMap (fun i =>
    if i ≠ nodeid ∧ get_link_cost cost i ≠ ⊤ then
      some { src := nodeid, dest := i, vec := vec }
    else none)

/-- `Node.update_helper`: snapshot the own row, run the relaxation pass,
and if the own row changed broadcast the updated row to all neighbours.
Returns the new node state and the list of packets handed to the link
layer, in send order. -/
def update_helper (N : ℕ) (cost : List Cost) (s : Node) : Node × List Packet :=
  let temp := get_dist_vector s
  let tp := relaxAll N cost s.nodeid (s.dist_table, s.predecessors)
  let s2 : Node := { nodeid := s.nodeid, dist_table := tp.1, predecessors := tp.2 }
  if temp = get_dist_vector s2 then (s2, [])
  else (s2, bcast N s.nodeid cost (get_dist_vector s2))

/-- `Node.update`: if the incoming vector equals the stored row for its
source this is a no-op, otherwise the row is overwritten with a copy of the
vector and `update_helper` runs. -/
def update (N : ℕ) (cost : List Cost) (s : Node) (src : ℕ)
    (vector : List Cost) : Node × List Packet :=
  if s.dist_table.getD src [] = vector then (s, [])
  else update_helper N cost { s with dist_table := s.dist_table.set src vector }

/-- `Node.link_cost_change_handler`: the body ignores both arguments and
calls `update_helper`; the changed cost is read from the environment's cost
row, which the simulator has already updated. -/
def link_cost_change_handler (N : ℕ) (cost : List Cost) (s : Node)
    (which_link : ℕ) (new_cost : Cost) : Node × List Packet :=
  update_helper N cost s

/-- `Node.__init__`: all-infinite table except the own row, which is seeded
from the cost row; predecessors start unset (`None`) and each neighbour `i`
(finite cost, `i != nodeid`) gets `predecessors[i] = i` and is sent one
Packet carrying the own row.  The single Python loop is split into the
predecessor fold and the send list `bcast`; both traverse
`range(NUM_NODES)` in the same order and touch disjoint state. -/
def node_init (N : ℕ) (nodeid : ℕ) (cost : List Cost) : Node × List Packet :=
  let t1 := (List.replicate N (List.replicate N (⊤ : Cost))).set nodeid cost
  let p1 := (List.range N).foldl
    (fun p i => if i ≠ nodeid ∧ get_link_cost cost i ≠ ⊤ then p.set i (some i) else p)
    (List.replicate N (none : Option ℕ))
  ({ nodeid := nodeid, dist_table := t1, predecessors := p1 },
   bcast N nodeid cost cost)

/-- An external trigger delivered to a node by the environment, carrying the
cost row in force at that moment (the simulator owns and mutates the cost
matrix). -/
inductive Event where
  | recv (cost : List Cost) (src : ℕ) (vector : List Cost)
  | linkChange (cost : List Cost) (which_link : ℕ) (new_cost : Cost)
deriving DecidableEq

/-- Dispatch one event to the corresponding entry point. -/
def applyEvent (N : ℕ) (s : Node) : Event → Node × List Packet
  | Event.recv cost src vector => update N cost s src vector
  | Event.linkChange cost w c => link_cost_change_handler N cost s w c

/-- Run a sequence of events from a state, accumulating every packet sent,
in send order. -/
def runEvents (N : ℕ) (s : Node) (evs : List Event) : Node × List Packet :=
  evs.foldl (fun acc e =>
    ((applyEvent N acc.1 e).1, acc.2 ++ (applyEvent N acc.1 e).2)) (s, [])

/-- The minimum that Invariant I2 of the spec talks about: the minimum over
all nodes `v` of `link_cost(v) + table[v][d]`. -/
def colMin (N : ℕ) (cost : List Cost) (t : List (List Cost)) (d : ℕ) : Cost :=
  ((List.range N).map (fun v => get_link_cost cost v + tableGet t v d)).foldr min ⊤

/-- Invariant I2 and I3 of the spec at one destination `d`: the own-row
entry equals the minimum over all `v` of `link_cost(v) + table[v][d]`, and
when that entry is finite the predecessor names a node achieving it. -/
def invariantAt (N : ℕ) (cost : List Cost) (s : Node) (d : ℕ) : Prop :=
  tableGet s.dist_table s.nodeid d = colMin N cost s.dist_table d ∧
  (tableGet s.dist_table s.nodeid d ≠ ⊤ →
    ∃ w, w < N ∧ w ≠ s.nodeid ∧ get_predecessor s d = some w ∧
      get_link_cost cost w + tableGet s.dist_table w d
        = tableGet s.dist_table s.nodeid d)

/-- The input contract of OnAdvertisementReceived (spec section 4.1): the
advertisement's source is not the receiving node itself. -/
def eventOK (nodeid : ℕ) : Event → Prop
  | Event.recv _ src _ => src ≠ nodeid
  | Event.linkChange _ _ _ => True

instance (nodeid : ℕ) (e : Event) : Decidable (eventOK nodeid e) := by
  cases e with
  | recv cost src vector => exact inferInstanceAs (Decidable (src ≠ nodeid))
  | linkChange cost w c => exact inferInstanceAs (Decidable True)

/-! ### Python indexing semantics

A strict model of `Node.update` for out-of-contract inputs: Python list
indexing raises IndexError (Option.none here) when the index is out of
range, and wraps negative indices by the list length. -/

/-- Resolve a Python list index: non-negative indices must be below the
length, negative indices count from the end. -/
def pyIdx (len : ℕ) (i : ℤ) : Option ℕ :=
  if 0 ≤ i then (if i < (len : ℤ) then some i.toNat else none)
  else (if 0 ≤ i + (len : ℤ) then some (i + (len : ℤ)).toNat else none)

/-- `l[i]` with Python semantics. -/
def pyGet (l : List (List Cost)) (i : ℤ) : Option (List Cost) :=
  (pyIdx l.length i).bind (fun j => l.get? j)

/-- `l[i] = a` with Python semantics. -/
def pySet (l : List (List Cost)) (i : ℤ) (a : List Cost) :
    Option (List (List Cost)) :=
  (pyIdx l.length i).map (fun j => l.set j a)

/-- Strict read `t[r][c]` (IndexError as none). -/
def tableGetPy (t : List (List Cost)) (r c : ℕ) : Option Cost :=
  (t.get? r).bind (fun row => row.get? c)

/-- Strict write `t[r][c] := x` (IndexError as none). -/
def tableSetPy (t : List (List Cost)) (r c : ℕ) (x : Cost) :
    Option (List (List Cost)) :=
  (t.get? r).bind (fun row =>
    if c < row.length then some (t.set r (row.set c x)) else none)

/-- Strict write `p[d] := some v`. -/
def predSetPy (p : List (Option ℕ)) (d : ℕ) (v : ℕ) :
    Option (List (Option ℕ)) :=
  if d < p.length then some (p.set d (some v)) else none

/-- Inner loop iteration of `update_helper` under strict Python indexing. -/
def relaxStepPy (cost : List Cost) (nodeid dest : ℕ)
    (acc : Option (List (List Cost) × List (Option ℕ))) (v : ℕ) :
    Option (List (List Cost) × List (Option ℕ)) :=
  acc.bind (fun tp =>
    (cost.get? v).bind (fun cv =>
      (tableGetPy tp.1 v dest).bind (fun tvd =>
        (tableGetPy tp.1 nodeid dest).bind (fun cur =>
          if cv + tvd < cur then
            (tableSetPy tp.1 nodeid dest (cv + tvd)).bind (fun t2 =>
              (predSetPy tp.2 dest v).map (fun p2 => (t2, p2)))
          else some tp))))

/-- The relaxation pass under strict Python indexing. -/
def relaxAllPy (N : ℕ) (cost : List Cost) (nodeid : ℕ)
    (tp : List (List Cost) × List (Option ℕ)) :
    Option (List (List Cost) × List (Option ℕ)) :=
  (List.range N).foldl (fun acc dest =>
    acc.bind (fun tp1 =>
      if dest = nodeid then some tp1
      else (tableSetPy tp1.1 nodeid dest ⊤).bind (fun t1 =>
        (List.range N).foldl (relaxStepPy cost nodeid dest)
          (some (t1, tp1.2)))))
    (some tp)

/-- `Node.update_helper` under strict Python indexing. -/
def update_helperPy (N : ℕ) (cost : List Cost) (s : Node) :
    Option (Node × List Packet) :=
  (relaxAllPy N cost s.nodeid (s.dist_table, s.predecessors)).map (fun tp =>
    let s2 : Node := { nodeid := s.nodeid, dist_table := tp.1, predecessors := tp.2 }
    if get_dist_vector s = get_dist_vector s2 then (s2, [])
    else (s2, bcast N s.nodeid cost (get_dist_vector s2)))

/-- `Node.update` under strict Python indexing, taking the packet's source
as a raw Python integer: `self.dist_table[src]` may raise, the equality
guard runs next, then the row is overwritten and `update_helper` runs. -/
def updatePy (N : ℕ) (cost : List Cost) (s : Node) (src : ℤ)
    (vector : List Cost) : Option (Node × List Packet) :=
  (pyGet s.dist_table src).bind (fun row =>
    if row = vector then some (s, [])
    else (pySet s.dist_table src vector).bind (fun t1 =>
      update_helperPy N cost { s with dist_table := t1 }))

/-! ### List helper lemmas -/

lemma set_getD_self {α : Type} : ∀ (l : List α) (i : ℕ) (a : α),
    l.set i (l.getD i a) = l
  | [], _, _ => rfl
  | _ :: _, 0, _ => rfl
  | x :: xs, i + 1, a => congrArg (x :: ·) (set_getD_self xs i a)

lemma getD_set_self {α : Type} : ∀ (l : List α) (i : ℕ), i < l.length →
    ∀ (x a : α), (l.set i x).getD i a = x
  | [], i, h => absurd h (by simp)
  | _ :: _, 0, _ => fun _ _ => rfl
  | _ :: ys, i + 1, h => fun x a =>
      getD_set_self ys i (by simpa using h) x a

lemma getD_set_ne {α : Type} : ∀ (l : List α) (i j : ℕ), i ≠ j →
    ∀ (x a : α), (l.set i x).getD j a = l.getD j a
  | [], _, _, _, _, _ => rfl
  | _ :: _, 0, 0, h, _, _ => absurd rfl h
  | _ :: _, 0, _ + 1, _, _, _ => rfl
  | _ :: _, _ + 1, 0, _, _, _ => rfl
  | _ :: ys, i + 1, j + 1, h, x, a =>
      getD_set_ne ys i j (fun hh => h (by rw [hh])) x a

lemma getD_of_le {α : Type} : ∀ (l : List α) (i : ℕ), l.length ≤ i →
    ∀ (a : α), l.getD i a = a
  | [], _, _, _ => rfl
  | _ :: _, 0, h, _ => absurd h (by simp)
  | _ :: ys, i + 1, h, a => getD_of_le ys i (by simpa using h) a

lemma set_of_le {α : Type} : ∀ (l : List α) (i : ℕ), l.length ≤ i →
    ∀ (x : α), l.set i x = l
  | [], _, _, _ => rfl
  | _ :: _, 0, h, _ => absurd h (by simp)
  | y :: ys, i + 1, h, x => congrArg (y :: ·) (set_of_le ys i (by simpa using h) x)

lemma getD_replicate {α : Type} : ∀ (n i : ℕ) (a : α),
    (List.replicate n a).getD i a = a
  | 0, _, _ => rfl
  | _ + 1, 0, _ => rfl
  | n + 1, i + 1, a => getD_replicate n i a

lemma getD_replicate_lt {α : Type} : ∀ (n i : ℕ), i < n →
    ∀ (a b : α), (List.replicate n a).getD i b = a
  | 0, _, h => absurd h (by simp)
  | _ + 1, 0, _ => fun _ _ => rfl
  | n + 1, i + 1, h => fun a b => getD_replicate_lt n i (by omega) a b

/-! ### tableGet / tableSet lemmas -/

lemma tableSet_length (t : List (List Cost)) (r c : ℕ) (x : Cost) :
    (tableSet t r c x).length = t.length :=
  List.length_set t r _

lemma tableSet_row_ne (t : List (List Cost)) (r c : ℕ) (x : Cost) (v : ℕ)
    (h : v ≠ r) : (tableSet t r c x).getD v [] = t.getD v [] :=
  getD_set_ne t r v (fun hh => h hh.symm) _ _

lemma tableGet_tableSet_row_ne (t : List (List Cost)) (r c : ℕ) (x : Cost)
    (v d : ℕ) (h : v ≠ r) : tableGet (tableSet t r c x) v d = tableGet t v d := by
  unfold tableGet
  rw [tableSet_row_ne t r c x v h]

lemma tableSet_getD_row_length (t : List (List Cost)) (r c : ℕ) (x : Cost) :
    ((tableSet t r c x).getD r []).length = (t.getD r []).length := by
  by_cases hr : r < t.length
  · unfold tableSet
    rw [getD_set_self t r hr]
    exact List.length_set _ _ _
  · unfold tableSet
    rw [set_of_le t r (le_of_not_lt hr)]

lemma tableGet_tableSet_self (t : List (List Cost)) (r c : ℕ)
    (hr : r < t.length) (hc : c < (t.getD r []).length) (x : Cost) :
    tableGet (tableSet t r c x) r c = x := by
  unfold tableGet tableSet
  rw [getD_set_self t r hr, getD_set_self _ c hc]

lemma tableGet_tableSet_col_ne (t : List (List Cost)) (r c : ℕ) (x : Cost)
    (d : ℕ) (h : d ≠ c) : tableGet (tableSet t r c x) r d = tableGet t r d := by
  unfold tableGet tableSet
  by_cases hr : r < t.length
  · rw [getD_set_self t r hr, getD_set_ne _ c d (fun hh => h hh.symm)]
  · rw [set_of_le t r (le_of_not_lt hr)]

lemma tableSet_tableSet (t : List (List Cost)) (r c : ℕ) (x y : Cost) :
    tableSet (tableSet t r c x) r c y = tableSet t r c y := by
  by_cases hr : r < t.length
  · show (tableSet t r c x).set r _ = _
    rw [show (tableSet t r c x).getD r [] = (t.getD r []).set c x from
      getD_set_self t r hr _ _]
    unfold tableSet
    rw [List.set_set, List.set_set]
  · have h1 : tableSet t r c x = t := set_of_le t r (le_of_not_lt hr) _
    rw [h1]

/-! ### Cost lemmas -/

lemma cost_le_add_left {a b : Cost} (h : 0 ≤ a) : b ≤ a + b := by
  calc b = 0 + b := (zero_add b).symm
  _ ≤ a + b := add_le_add_right h b

/-! ### A functional mirror of the inner relaxation loop

`scanMin l m w` runs the inner loop of `update_helper` over the candidate
list `l` with current own-row entry `m` and current predecessor write `w`
(`none` when nothing has been written yet).  The read of
`dist_table[v][dest]` at `v = nodeid` is the running entry `m` itself,
exactly as the in-place Python loop reads the row it is updating. -/

def scanMin (cost : List Cost) (t : List (List Cost)) (nodeid d : ℕ) :
    List ℕ → Cost → Option ℕ → Cost × Option ℕ
  | [], m, w => (m, w)
  | v :: vs, m, w =>
    if get_link_cost cost v + (if v = nodeid then m else tableGet t v d) < m then
      scanMin cost t nodeid d vs
        (get_link_cost cost v + (if v = nodeid then m else tableGet t v d)) (some v)
    else scanMin cost t nodeid d vs m w

/-- Apply a pending predecessor write to the predecessor list. -/
def applyPred (p : List (Option ℕ)) (d : ℕ) : Option ℕ → List (Option ℕ)
  | none => p
  | some v => p.set d (some v)

/-- Apply a pending predecessor write to a single slot value. -/
def predApply (old : Option ℕ) : Option ℕ → Option ℕ
  | none => old
  | some v => some v

lemma applyPred_length (p : List (Option ℕ)) (d : ℕ) (w : Option ℕ) :
    (applyPred p d w).length = p.length := by
  cases w with
  | none => rfl
  | some v => exact List.length_set p d _

lemma applyPred_getD_ne (p : List (Option ℕ)) (d : ℕ) (w : Option ℕ) (c : ℕ)
    (h : c ≠ d) : (applyPred p d w).getD c none = p.getD c none := by
  cases w with
  | none => rfl
  | some v => exact getD_set_ne p d c (fun hh => h hh.symm) _ _

lemma applyPred_getD_self (p : List (Option ℕ)) (d : ℕ) (w : Option ℕ)
    (h : d < p.length) :
    (applyPred p d w).getD d none = predApply (p.getD d none) w := by
  cases w with
  | none => rfl
  | some v => exact getD_set_self p d h _ _

lemma predApply_predApply (o w : Option ℕ) :
    predApply (predApply o w) w = predApply o w := by
  cases w <;> rfl

section Scan

variable (cost : List Cost) (t : List (List Cost)) (nodeid d : ℕ)

lemma scanMin_le : ∀ (l : List ℕ) (m : Cost) (w : Option ℕ),
    (scanMin cost t nodeid d l m w).1 ≤ m := by
  intro l
  induction l with
  | nil => intro m w; exact le_rfl
  | cons v vs ih =>
    intro m w
    rw [scanMin]
    by_cases h : get_link_cost cost v + (if v = nodeid then m else tableGet t v d) < m
    · rw [if_pos h]
      exact le_trans (ih _ _) (le_of_lt h)
    · rw [if_neg h]
      exact ih _ _

lemma scanMin_le_mem : ∀ (l : List ℕ) (m : Cost) (w : Option ℕ) (v : ℕ),
    v ∈ l → v ≠ nodeid →
    (scanMin cost t nodeid d l m w).1 ≤ get_link_cost cost v + tableGet t v d := by
  intro l
  induction l with
  | nil => intro m w v hv; exact absurd hv (List.not_mem_nil v)
  | cons u vs ih =>
    intro m w v hv hvne
    rcases List.mem_cons.mp hv with heq | hmem
    · subst heq
      rw [scanMin, if_neg hvne]
      by_cases h : get_link_cost cost v + tableGet t v d < m
      · rw [if_pos h]
        exact scanMin_le cost t nodeid d _ _ _
      · rw [if_neg h]
        exact le_trans (scanMin_le cost t nodeid d _ _ _) (le_of_not_lt h)
    · rw [scanMin]
      by_cases h : get_link_cost cost u + (if u = nodeid then m else tableGet t u d) < m
      · rw [if_pos h]
        exact ih _ _ v hmem hvne
      · rw [if_neg h]
        exact ih _ _ v hmem hvne

lemma scanMin_fst_indep : ∀ (l : List ℕ) (m : Cost) (w w2 : Option ℕ),
    (scanMin cost t nodeid d l m w).1 = (scanMin cost t nodeid d l m w2).1 := by
  intro l
  induction l with
  | nil => intro m w w2; rfl
  | cons v vs ih =>
    intro m w w2
    rw [scanMin, scanMin]
    by_cases h : get_link_cost cost v + (if v = nodeid then m else tableGet t v d) < m
    · rw [if_pos h, if_pos h]
    · rw [if_neg h, if_neg h]
      exact ih _ _ _

lemma scanMin_snd_some : ∀ (l : List ℕ) (m : Cost) (v : ℕ),
    ∃ u, (scanMin cost t nodeid d l m (some v)).2 = some u := by
  intro l
  induction l with
  | nil => intro m v; exact ⟨v, rfl⟩
  | cons u vs ih =>
    intro m v
    rw [scanMin]
    by_cases h : get_link_cost cost u + (if u = nodeid then m else tableGet t u d) < m
    · rw [if_pos h]
      exact ih _ _
    · rw [if_neg h]
      exact ih _ _

lemma scanMin_snd_shift : ∀ (l : List ℕ) (m : Cost) (v : ℕ),
    (∃ u, (scanMin cost t nodeid d l m (some v)).2 = some u ∧
          (scanMin cost t nodeid d l m none).2 = some u) ∨
    ((scanMin cost t nodeid d l m (some v)).2 = some v ∧
     (scanMin cost t nodeid d l m none).2 = none) := by
  intro l
  induction l with
  | nil => intro m v; exact Or.inr ⟨rfl, rfl⟩
  | cons u vs ih =>
    intro m v
    rw [scanMin, scanMin]
    by_cases h : get_link_cost cost u + (if u = nodeid then m else tableGet t u d) < m
    · rw [if_pos h, if_pos h]
      rcases scanMin_snd_some cost t nodeid d vs
        (get_link_cost cost u + (if u = nodeid then m else tableGet t u d)) u with ⟨u2, hu2⟩
      exact Or.inl ⟨u2, hu2, hu2⟩
    · rw [if_neg h, if_neg h]
      exact ih _ _

lemma scanMin_congr (t2 : List (List Cost))
    (hc : ∀ v, v ≠ nodeid → tableGet t v d = tableGet t2 v d) :
    ∀ (l : List ℕ) (m : Cost) (w : Option ℕ),
    scanMin cost t nodeid d l m w = scanMin cost t2 nodeid d l m w := by
  intro l
  induction l with
  | nil => intro m w; rfl
  | cons v vs ih =>
    intro m w
    rw [scanMin, scanMin]
    by_cases hv : v = nodeid
    · rw [if_pos hv, if_pos hv]
      by_cases h : get_link_cost cost v + m < m
      · rw [if_pos h, if_pos h]
        exact ih _ _
      · rw [if_neg h, if_neg h]
        exact ih _ _
    · rw [if_neg hv, if_neg hv, hc v hv]
      by_cases h : get_link_cost cost v + tableGet t2 v d < m
      · rw [if_pos h, if_pos h]
        exact ih _ _
      · rw [if_neg h, if_neg h]
        exact ih _ _

lemma scanMin_achieve (hnn : 0 ≤ get_link_cost cost nodeid) :
    ∀ (l : List ℕ) (m : Cost) (w : Option ℕ),
    ((scanMin cost t nodeid d l m w).1 = m ∧
     (scanMin cost t nodeid d l m w).2 = w) ∨
    (∃ v l1 l2, l = l1 ++ v :: l2 ∧ v ≠ nodeid ∧
      (scanMin cost t nodeid d l m w).2 = some v ∧
      get_link_cost cost v + tableGet t v d = (scanMin cost t nodeid d l m w).1 ∧
      (scanMin cost t nodeid d l m w).1 < m ∧
      ∀ u ∈ l1, u ≠ nodeid →
        (scanMin cost t nodeid d l m w).1 < get_link_cost cost u + tableGet t u d) := by
  intro l
  induction l with
  | nil => intro m w; exact Or.inl ⟨rfl, rfl⟩
  | cons v vs ih =>
    intro m w
    rw [scanMin]
    by_cases hv : v = nodeid
    · have hnolt : ¬ (get_link_cost cost v + (if v = nodeid then m else tableGet t v d) < m) := by
        rw [if_pos hv, hv]
        exact not_lt.mpr (cost_le_add_left hnn)
      rw [if_neg hnolt]
      rcases ih m w with h | ⟨u, l1, l2, hsplit, hune, h2, h3, h4, h5⟩
      · exact Or.inl h
      · refine Or.inr ⟨u, v :: l1, l2, by simp [hsplit], hune, h2, h3, h4, ?_⟩
        intro u2 hu2 hu2ne
        rcases List.mem_cons.mp hu2 with h | h
        · exact absurd (h.trans hv) hu2ne
        · exact h5 u2 h hu2ne
    · rw [if_neg hv]
      by_cases hlt : get_link_cost cost v + tableGet t v d < m
      · rw [if_pos hlt]
        rcases ih (get_link_cost cost v + tableGet t v d) (some v) with
          ⟨h1, h2⟩ | ⟨u, l1, l2, hsplit, hune, h2, h3, h4, h5⟩
        · exact Or.inr ⟨v, [], vs, rfl, hv, h2, h1.symm, by rw [h1]; exact hlt,
            fun u hu => absurd hu (List.not_mem_nil u)⟩
        · refine Or.inr ⟨u, v :: l1, l2, by simp [hsplit], hune, h2, h3,
            lt_trans h4 hlt, ?_⟩
          intro u2 hu2 hu2ne
          rcases List.mem_cons.mp hu2 with h | h
          · rw [h]; exact h4
          · exact h5 u2 h hu2ne
      · rw [if_neg hlt]
        rcases ih m w with h | ⟨u, l1, l2, hsplit, hune, h2, h3, h4, h5⟩
        · exact Or.inl h
        · refine Or.inr ⟨u, v :: l1, l2, by simp [hsplit], hune, h2, h3, h4, ?_⟩
          intro u2 hu2 hu2ne
          rcases List.mem_cons.mp hu2 with h | h
          · rw [h]; exact lt_of_lt_of_le h4 (le_of_not_lt hlt)
          · exact h5 u2 h hu2ne

end Scan

/-! ### Frame lemmas for the relaxation loops -/

lemma foldl_inv {α β : Type} (P : β → Prop) (f : β → α → β) :
    ∀ (l : List α), (∀ b a, a ∈ l → P b → P (f b a)) → ∀ b, P b → P (l.foldl f b)
  | [], _, _, hb => hb
  | a :: as, h, b, hb =>
      foldl_inv P f as (fun b2 a2 ha2 => h b2 a2 (List.mem_cons_of_mem a ha2))
        (f b a) (h b a (List.mem_cons_self a as) hb)

lemma relaxStep_row_ne (cost : List Cost) (nodeid dest : ℕ)
    (tp : List (List Cost) × List (Option ℕ)) (v r : ℕ) (hr : r ≠ nodeid) :
    (relaxStep cost nodeid dest tp v).1.getD r [] = tp.1.getD r [] := by
  unfold relaxStep
  split
  · exact tableSet_row_ne _ _ _ _ r hr
  · rfl

lemma relaxStep_fst_length (cost : List Cost) (nodeid dest : ℕ)
    (tp : List (List Cost) × List (Option ℕ)) (v : ℕ) :
    (relaxStep cost nodeid dest tp v).1.length = tp.1.length := by
  unfold relaxStep
  split
  · exact tableSet_length _ _ _ _
  · rfl

lemma relaxStep_row_length (cost : List Cost) (nodeid dest : ℕ)
    (tp : List (List Cost) × List (Option ℕ)) (v : ℕ) :
    ((relaxStep cost nodeid dest tp v).1.getD nodeid []).length
      = (tp.1.getD nodeid []).length := by
  unfold relaxStep
  split
  · exact tableSet_getD_row_length _ _ _ _
  · rfl

lemma relaxStep_snd_length (cost : List Cost) (nodeid dest : ℕ)
    (tp : List (List Cost) × List (Option ℕ)) (v : ℕ) :
    (relaxStep cost nodeid dest tp v).2.length = tp.2.length := by
  unfold relaxStep
  split
  · exact List.length_set _ _ _
  · rfl

lemma relaxStep_col_ne (cost : List Cost) (nodeid dest : ℕ)
    (tp : List (List Cost) × List (Option ℕ)) (v c : ℕ) (hc : c ≠ dest) :
    tableGet (relaxStep cost nodeid dest tp v).1 nodeid c = tableGet tp.1 nodeid c := by
  unfold relaxStep
  split
  · exact tableGet_tableSet_col_ne _ _ _ _ c hc
  · rfl

lemma relaxStep_pred_ne (cost : List Cost) (nodeid dest : ℕ)
    (tp : List (List Cost) × List (Option ℕ)) (v c : ℕ) (hc : c ≠ dest) :
    (relaxStep cost nodeid dest tp v).2.getD c none = tp.2.getD c none := by
  unfold relaxStep
  split
  · exact getD_set_ne _ _ _ (fun hh => hc hh.symm) _ _
  · rfl

/-! ### Characterisation of the inner loop -/

lemma foldl_relaxStep_char (cost : List Cost) (nodeid d : ℕ) :
    ∀ (l : List ℕ) (t : List (List Cost)) (p : List (Option ℕ)),
      nodeid < t.length → d < (t.getD nodeid []).length →
      l.foldl (relaxStep cost nodeid d) (t, p)
        = (tableSet t nodeid d (scanMin cost t nodeid d l (tableGet t nodeid d) none).1,
           applyPred p d (scanMin cost t nodeid d l (tableGet t nodeid d) none).2) := by
  intro l
  induction l with
  | nil =>
    intro t p h1 h2
    show (t, p) = (tableSet t nodeid d (tableGet t nodeid d), applyPred p d none)
    have hts : tableSet t nodeid d (tableGet t nodeid d) = t := by
      unfold tableSet tableGet
      rw [set_getD_self, set_getD_self]
    rw [hts]
    rfl
  | cons v vs ih =>
    intro t p h1 h2
    have hif : (if v = nodeid then tableGet t nodeid d else tableGet t v d)
        = tableGet t v d := by
      by_cases hv : v = nodeid
      · rw [if_pos hv, hv]
      · rw [if_neg hv]
    rw [List.foldl_cons, scanMin, hif]
    have hstep : relaxStep cost nodeid d (t, p) v
        = if get_link_cost cost v + tableGet t v d < tableGet t nodeid d then
            (tableSet t nodeid d (get_link_cost cost v + tableGet t v d),
             p.set d (some v))
          else (t, p) := rfl
    by_cases hlt : get_link_cost cost v + tableGet t v d < tableGet t nodeid d
    · rw [hstep, if_pos hlt, if_pos hlt]
      have h1b : nodeid
          < (tableSet t nodeid d (get_link_cost cost v + tableGet t v d)).length := by
        rw [tableSet_length]; exact h1
      have h2b : d < ((tableSet t nodeid d
          (get_link_cost cost v + tableGet t v d)).getD nodeid []).length := by
        rw [tableSet_getD_row_length]; exact h2
      rw [ih _ _ h1b h2b]
      have htop : tableGet (tableSet t nodeid d
          (get_link_cost cost v + tableGet t v d)) nodeid d
          = get_link_cost cost v + tableGet t v d :=
        tableGet_tableSet_self _ _ _ h1 h2 _
      have hcg : scanMin cost (tableSet t nodeid d
            (get_link_cost cost v + tableGet t v d)) nodeid d vs
            (get_link_cost cost v + tableGet t v d) none
          = scanMin cost t nodeid d vs
            (get_link_cost cost v + tableGet t v d) none :=
        scanMin_congr cost _ nodeid d t
          (fun u hu => tableGet_tableSet_row_ne _ _ _ _ _ _ hu) _ _ _
      rw [htop, hcg, tableSet_tableSet,
        scanMin_fst_indep cost t nodeid d vs
          (get_link_cost cost v + tableGet t v d) none (some v)]
      rcases scanMin_snd_shift cost t nodeid d vs
          (get_link_cost cost v + tableGet t v d) v with ⟨u, hs3, hs2⟩ | ⟨hs3, hs2⟩
      · rw [hs2, hs3]
        show (_, (p.set d (some v)).set d (some u)) = (_, p.set d (some u))
        rw [List.set_set]
      · rw [hs2, hs3]
        rfl
    · rw [hstep, if_neg hlt, if_neg hlt]
      exact ih t p h1 h2

/-! ### Characterisation of one outer-loop iteration -/

lemma relaxDest_char (N : ℕ) (cost : List Cost) (nodeid : ℕ)
    (tp : List (List Cost) × List (Option ℕ)) (d : ℕ) (hd : d ≠ nodeid)
    (h1 : nodeid < tp.1.length) (h2 : d < (tp.1.getD nodeid []).length) :
    relaxDest N cost nodeid tp d
      = (tableSet tp.1 nodeid d (scanMin cost tp.1 nodeid d (List.range N) ⊤ none).1,
         applyPred tp.2 d (scanMin cost tp.1 nodeid d (List.range N) ⊤ none).2) := by
  unfold relaxDest
  rw [if_neg hd]
  have h1b : nodeid < (tableSet tp.1 nodeid d ⊤).length := by
    rw [tableSet_length]; exact h1
  have h2b : d < ((tableSet tp.1 nodeid d ⊤).getD nodeid []).length := by
    rw [tableSet_getD_row_length]; exact h2
  rw [foldl_relaxStep_char cost nodeid d (List.range N) _ _ h1b h2b]
  have htop : tableGet (tableSet tp.1 nodeid d ⊤) nodeid d = ⊤ :=
    tableGet_tableSet_self _ _ _ h1 h2 _
  have hcg : scanMin cost (tableSet tp.1 nodeid d ⊤) nodeid d (List.range N) ⊤ none
      = scanMin cost tp.1 nodeid d (List.range N) ⊤ none :=
    scanMin_congr cost _ nodeid d tp.1
      (fun u hu => tableGet_tableSet_row_ne _ _ _ _ _ _ hu) _ _ _
  rw [htop, hcg, tableSet_tableSet]

lemma relaxDest_row_ne (N : ℕ) (cost : List Cost) (nodeid : ℕ)
    (tp : List (List Cost) × List (Option ℕ)) (dest r : ℕ) (hr : r ≠ nodeid) :
    (relaxDest N cost nodeid tp dest).1.getD r [] = tp.1.getD r [] := by
  unfold relaxDest
  split
  · rfl
  · refine foldl_inv (fun (x : List (List Cost) × List (Option ℕ)) => x.1.getD r [] = tp.1.getD r []) _ (List.range N)
      (fun b a _ hb => ?_) _ ?_
    · exact (relaxStep_row_ne cost nodeid dest b a r hr).trans hb
    · exact tableSet_row_ne _ _ _ _ r hr

lemma relaxDest_lengths (N : ℕ) (cost : List Cost) (nodeid : ℕ)
    (tp : List (List Cost) × List (Option ℕ)) (dest : ℕ) :
    (relaxDest N cost nodeid tp dest).1.length = tp.1.length ∧
    ((relaxDest N cost nodeid tp dest).1.getD nodeid []).length
      = (tp.1.getD nodeid []).length ∧
    (relaxDest N cost nodeid tp dest).2.length = tp.2.length := by
  unfold relaxDest
  split
  · exact ⟨rfl, rfl, rfl⟩
  · refine foldl_inv (fun (x : List (List Cost) × List (Option ℕ)) =>
      x.1.length = tp.1.length ∧
      (x.1.getD nodeid []).length = (tp.1.getD nodeid []).length ∧
      x.2.length = tp.2.length) _ (List.range N)
      (fun b a _ hb => ?_) _ ?_
    · exact ⟨(relaxStep_fst_length cost nodeid dest b a).trans hb.1,
        (relaxStep_row_length cost nodeid dest b a).trans hb.2.1,
        (relaxStep_snd_length cost nodeid dest b a).trans hb.2.2⟩
    · exact ⟨tableSet_length _ _ _ _, tableSet_getD_row_length _ _ _ _, rfl⟩

lemma relaxDest_keep (N : ℕ) (cost : List Cost) (nodeid : ℕ)
    (tp : List (List Cost) × List (Option ℕ)) (dest c : ℕ)
    (hc : c ≠ dest ∨ dest = nodeid) :
    tableGet (relaxDest N cost nodeid tp dest).1 nodeid c = tableGet tp.1 nodeid c ∧
    (relaxDest N cost nodeid tp dest).2.getD c none = tp.2.getD c none := by
  unfold relaxDest
  split
  · exact ⟨rfl, rfl⟩
  · rename_i hdn
    have hcd : c ≠ dest := by
      rcases hc with h | h
      · exact h
      · exact absurd h hdn
    refine foldl_inv (fun (x : List (List Cost) × List (Option ℕ)) =>
      tableGet x.1 nodeid c = tableGet tp.1 nodeid c ∧
      x.2.getD c none = tp.2.getD c none) _ (List.range N)
      (fun b a _ hb => ?_) _ ?_
    · exact ⟨(relaxStep_col_ne cost nodeid dest b a c hcd).trans hb.1,
        (relaxStep_pred_ne cost nodeid dest b a c hcd).trans hb.2⟩
    · exact ⟨tableGet_tableSet_col_ne _ _ _ _ c hcd, rfl⟩

/-! ### Characterisation of the full relaxation pass -/

lemma relaxFold_keep (N : ℕ) (cost : List Cost) (nodeid : ℕ) :
    ∀ (ds : List ℕ) (tp : List (List Cost) × List (Option ℕ)) (c : ℕ),
      (c ∉ ds ∨ c = nodeid) →
      tableGet (ds.foldl (relaxDest N cost nodeid) tp).1 nodeid c
        = tableGet tp.1 nodeid c ∧
      (ds.foldl (relaxDest N cost nodeid) tp).2.getD c none = tp.2.getD c none := by
  intro ds
  induction ds with
  | nil => intro tp c _; exact ⟨rfl, rfl⟩
  | cons d ds ih =>
    intro tp c hc
    rw [List.foldl_cons]
    have hstep : tableGet (relaxDest N cost nodeid tp d).1 nodeid c
        = tableGet tp.1 nodeid c ∧
        (relaxDest N cost nodeid tp d).2.getD c none = tp.2.getD c none := by
      refine relaxDest_keep N cost nodeid tp d c ?_
      rcases hc with h | h
      · exact Or.inl (fun hh => h (hh ▸ List.mem_cons_self d ds))
      · by_cases hdn : d = nodeid
        · exact Or.inr hdn
        · exact Or.inl (fun hh => hdn (hh ▸ h.symm ▸ rfl))
    have hrest := ih (relaxDest N cost nodeid tp d) c
      (by rcases hc with h | h
          · exact Or.inl (fun hh => h (List.mem_cons_of_mem d hh))
          · exact Or.inr h)
    exact ⟨hrest.1.trans hstep.1, hrest.2.trans hstep.2⟩

lemma relaxFold_row_ne (N : ℕ) (cost : List Cost) (nodeid : ℕ)
    (ds : List ℕ) (tp : List (List Cost) × List (Option ℕ)) (r : ℕ)
    (hr : r ≠ nodeid) :
    (ds.foldl (relaxDest N cost nodeid) tp).1.getD r [] = tp.1.getD r [] := by
  refine foldl_inv (fun (x : List (List Cost) × List (Option ℕ)) =>
    x.1.getD r [] = tp.1.getD r []) _ ds (fun b a _ hb => ?_) _ rfl
  exact (relaxDest_row_ne N cost nodeid b a r hr).trans hb

lemma relaxFold_lengths (N : ℕ) (cost : List Cost) (nodeid : ℕ)
    (ds : List ℕ) (tp : List (List Cost) × List (Option ℕ)) :
    (ds.foldl (relaxDest N cost nodeid) tp).1.length = tp.1.length ∧
    ((ds.foldl (relaxDest N cost nodeid) tp).1.getD nodeid []).length
      = (tp.1.getD nodeid []).length ∧
    (ds.foldl (relaxDest N cost nodeid) tp).2.length = tp.2.length := by
  refine foldl_inv (fun (x : List (List Cost) × List (Option ℕ)) =>
    x.1.length = tp.1.length ∧
    (x.1.getD nodeid []).length = (tp.1.getD nodeid []).length ∧
    x.2.length = tp.2.length) _ ds (fun b a _ hb => ?_) _ ⟨rfl, rfl, rfl⟩
  rcases relaxDest_lengths N cost nodeid b a with ⟨e1, e2, e3⟩
  exact ⟨e1.trans hb.1, e2.trans hb.2.1, e3.trans hb.2.2⟩

lemma relaxFold_entry (N : ℕ) (cost : List Cost) (nodeid : ℕ) :
    ∀ (ds : List ℕ) (tp : List (List Cost) × List (Option ℕ)) (c : ℕ),
      nodeid < tp.1.length → (∀ e ∈ ds, e < (tp.1.getD nodeid []).length) →
      c < tp.2.length → c ∈ ds → c ≠ nodeid →
      tableGet (ds.foldl (relaxDest N cost nodeid) tp).1 nodeid c
        = (scanMin cost tp.1 nodeid c (List.range N) ⊤ none).1 ∧
      (ds.foldl (relaxDest N cost nodeid) tp).2.getD c none
        = predApply (tp.2.getD c none)
            (scanMin cost tp.1 nodeid c (List.range N) ⊤ none).2 := by
  intro ds
  induction ds with
  | nil => intro tp c _ _ _ hc _; exact absurd hc (List.not_mem_nil c)
  | cons d ds ih =>
    intro tp c h1 h2 h3 hc hcn
    rw [List.foldl_cons]
    by_cases hdn : d = nodeid
    · have hstep : relaxDest N cost nodeid tp d = tp := by
        unfold relaxDest; rw [if_pos hdn]
      rw [hstep]
      have hcds : c ∈ ds := by
        rcases List.mem_cons.mp hc with h | h
        · exact absurd (h.trans hdn) hcn
        · exact h
      exact ih tp c h1 (fun e he => h2 e (List.mem_cons_of_mem d he)) h3 hcds hcn
    · have hdlen : d < (tp.1.getD nodeid []).length := h2 d (List.mem_cons_self d ds)
      rw [relaxDest_char N cost nodeid tp d hdn h1 hdlen]
      have hrowcg : ∀ (c2 : ℕ),
          scanMin cost (tableSet tp.1 nodeid d
              (scanMin cost tp.1 nodeid d (List.range N) ⊤ none).1) nodeid c2
            (List.range N) ⊤ none
          = scanMin cost tp.1 nodeid c2 (List.range N) ⊤ none := by
        intro c2
        exact scanMin_congr cost _ nodeid c2 tp.1
          (fun u hu => tableGet_tableSet_row_ne _ _ _ _ _ _ hu) _ _ _
      have h1b : nodeid < (tableSet tp.1 nodeid d
          (scanMin cost tp.1 nodeid d (List.range N) ⊤ none).1).length := by
        rw [tableSet_length]; exact h1
      have h2b : ∀ e ∈ ds, e < ((tableSet tp.1 nodeid d
          (scanMin cost tp.1 nodeid d (List.range N) ⊤ none).1).getD nodeid []).length := by
        intro e he
        rw [tableSet_getD_row_length]
        exact h2 e (List.mem_cons_of_mem d he)
      have h3b : c < (applyPred tp.2 d
          (scanMin cost tp.1 nodeid d (List.range N) ⊤ none).2).length := by
        rw [applyPred_length]; exact h3
      by_cases hcds : c ∈ ds
      · have hih := ih (tableSet tp.1 nodeid d
            (scanMin cost tp.1 nodeid d (List.range N) ⊤ none).1,
            applyPred tp.2 d (scanMin cost tp.1 nodeid d (List.range N) ⊤ none).2)
          c h1b h2b h3b hcds hcn
        rw [hrowcg c] at hih
        refine ⟨hih.1, ?_⟩
        rw [hih.2]
        by_cases hcd : c = d
        · subst hcd
          rw [applyPred_getD_self tp.2 c _ h3, predApply_predApply]
        · rw [applyPred_getD_ne tp.2 d _ c hcd]
      · have hcd : c = d := by
          rcases List.mem_cons.mp hc with h | h
          · exact h
          · exact absurd h hcds
        subst hcd
        have hkeep := relaxFold_keep N cost nodeid ds
          (tableSet tp.1 nodeid c
              (scanMin cost tp.1 nodeid c (List.range N) ⊤ none).1,
            applyPred tp.2 c (scanMin cost tp.1 nodeid c (List.range N) ⊤ none).2)
          c (Or.inl hcds)
        refine ⟨hkeep.1.trans ?_, hkeep.2.trans ?_⟩
        · exact tableGet_tableSet_self _ _ _ h1 hdlen _
        · exact applyPred_getD_self tp.2 c _ h3

/-! ### update_helper lemmas -/

lemma tableGet_congr_row (t1 t2 : List (List Cost)) (v d : ℕ)
    (h : t1.getD v [] = t2.getD v []) : tableGet t1 v d = tableGet t2 v d := by
  unfold tableGet
  rw [h]

lemma update_helper_fst (N : ℕ) (cost : List Cost) (s : Node) :
    (update_helper N cost s).1
      = { nodeid := s.nodeid,
          dist_table := (relaxAll N cost s.nodeid (s.dist_table, s.predecessors)).1,
          predecessors := (relaxAll N cost s.nodeid (s.dist_table, s.predecessors)).2 } := by
  simp only [update_helper]
  split <;> rfl

lemma update_helper_snd (N : ℕ) (cost : List Cost) (s : Node) :
    (update_helper N cost s).2
      = if get_dist_vector s
            = (relaxAll N cost s.nodeid (s.dist_table, s.predecessors)).1.getD s.nodeid []
        then []
        else bcast N s.nodeid cost
          ((relaxAll N cost s.nodeid (s.dist_table, s.predecessors)).1.getD s.nodeid []) := by
  simp only [update_helper]
  split
  · rename_i h
    have h2 : get_dist_vector s
        = (relaxAll N cost s.nodeid (s.dist_table, s.predecessors)).1.getD s.nodeid [] := h
    rw [if_pos h2]
  · rename_i h
    have h2 : ¬ get_dist_vector s
        = (relaxAll N cost s.nodeid (s.dist_table, s.predecessors)).1.getD s.nodeid [] := h
    rw [if_neg h2]
    rfl

lemma update_helper_nodeid (N : ℕ) (cost : List Cost) (s : Node) :
    (update_helper N cost s).1.nodeid = s.nodeid := by
  rw [update_helper_fst]

lemma update_helper_row_ne (N : ℕ) (cost : List Cost) (s : Node) (r : ℕ)
    (hr : r ≠ s.nodeid) :
    (update_helper N cost s).1.dist_table.getD r [] = s.dist_table.getD r [] := by
  rw [update_helper_fst]
  exact relaxFold_row_ne N cost s.nodeid (List.range N) (s.dist_table, s.predecessors) r hr

lemma update_helper_keep_self (N : ℕ) (cost : List Cost) (s : Node) :
    tableGet (update_helper N cost s).1.dist_table s.nodeid s.nodeid
      = tableGet s.dist_table s.nodeid s.nodeid ∧
    (update_helper N cost s).1.predecessors.getD s.nodeid none
      = s.predecessors.getD s.nodeid none := by
  rw [update_helper_fst]
  exact relaxFold_keep N cost s.nodeid (List.range N) (s.dist_table, s.predecessors)
    s.nodeid (Or.inr rfl)

lemma update_helper_lengths (N : ℕ) (cost : List Cost) (s : Node) :
    (update_helper N cost s).1.dist_table.length = s.dist_table.length ∧
    ((update_helper N cost s).1.dist_table.getD s.nodeid []).length
      = (s.dist_table.getD s.nodeid []).length ∧
    (update_helper N cost s).1.predecessors.length = s.predecessors.length := by
  rw [update_helper_fst]
  exact relaxFold_lengths N cost s.nodeid (List.range N) (s.dist_table, s.predecessors)

lemma update_helper_entry (N : ℕ) (cost : List Cost) (s : Node)
    (h1 : s.nodeid < N) (h2 : s.dist_table.length = N)
    (h3 : (s.dist_table.getD s.nodeid []).length = N)
    (h4 : s.predecessors.length = N) (d : ℕ) (hd : d < N) (hdn : d ≠ s.nodeid) :
    tableGet (update_helper N cost s).1.dist_table s.nodeid d
      = (scanMin cost s.dist_table s.nodeid d (List.range N) ⊤ none).1 ∧
    (update_helper N cost s).1.predecessors.getD d none
      = predApply (s.predecessors.getD d none)
          (scanMin cost s.dist_table s.nodeid d (List.range N) ⊤ none).2 := by
  rw [update_helper_fst]
  exact relaxFold_entry N cost s.nodeid (List.range N) (s.dist_table, s.predecessors) d
    (by rw [h2]; exact h1) (fun e he => by rw [h3]; exact List.mem_range.mp he)
    (by rw [h4]; exact hd) (List.mem_range.mpr hd) hdn

/-! ### Fold-min lemmas for colMin -/

lemma foldr_min_le : ∀ (l : List Cost) (x : Cost), x ∈ l → l.foldr min ⊤ ≤ x
  | [], x, hx => absurd hx (List.not_mem_nil x)
  | _ :: ys, x, hx => by
      rcases List.mem_cons.mp hx with h | h
      · rw [List.foldr_cons, h]
        exact min_le_left _ _
      · rw [List.foldr_cons]
        exact le_trans (min_le_right _ _) (foldr_min_le ys x h)

lemma le_foldr_min : ∀ (l : List Cost) (c : Cost), (∀ x ∈ l, c ≤ x) →
    c ≤ l.foldr min ⊤
  | [], _, _ => le_top
  | y :: ys, c, h => by
      rw [List.foldr_cons]
      exact le_min (h y (List.mem_cons_self y ys))
        (le_foldr_min ys c (fun x hx => h x (List.mem_cons_of_mem y hx)))

/-- For a split of `range N` at `v`, everything smaller than `v` lies in the
left part. -/
lemma mem_left_of_range_split (N v : ℕ) (l1 l2 : List ℕ)
    (h : List.range N = l1 ++ v :: l2) (u : ℕ) (hu : u < v) : u ∈ l1 := by
  have hvN : v < N := by
    have : v ∈ List.range N := by
      rw [h]; exact List.mem_append_right _ (List.mem_cons_self _ _)
    exact List.mem_range.mp this
  have humem : u ∈ l1 ++ v :: l2 := by
    rw [← h]; exact List.mem_range.mpr (by omega)
  have hpw : (l1 ++ v :: l2).Pairwise (· < ·) := by
    rw [← h]; exact List.pairwise_lt_range N
  rcases List.mem_append.mp humem with hin | hin
  · exact hin
  · rcases List.mem_cons.mp hin with he | hl2
    · omega
    · rcases List.pairwise_append.mp hpw with ⟨_, hp2, _⟩
      have := (List.pairwise_cons.mp hp2).1 u hl2
      omega

/-! ### The relaxation fixed point -/

lemma update_helper_fixed_point (N : ℕ) (cost : List Cost) (s : Node)
    (h1 : s.nodeid < N) (h2 : s.dist_table.length = N)
    (h3 : (s.dist_table.getD s.nodeid []).length = N)
    (h4 : s.predecessors.length = N)
    (hnn : 0 ≤ get_link_cost cost s.nodeid)
    (d : ℕ) (hd : d < N) (hdn : d ≠ s.nodeid) :
    tableGet (update_helper N cost s).1.dist_table s.nodeid d
      = colMin N cost (update_helper N cost s).1.dist_table d ∧
    (tableGet (update_helper N cost s).1.dist_table s.nodeid d ≠ ⊤ →
      ∃ w, w < N ∧ w ≠ s.nodeid ∧
        (update_helper N cost s).1.predecessors.getD d none = some w ∧
        get_link_cost cost w + tableGet (update_helper N cost s).1.dist_table w d
          = tableGet (update_helper N cost s).1.dist_table s.nodeid d) := by
  rcases update_helper_entry N cost s h1 h2 h3 h4 d hd hdn with ⟨hval, hpred⟩
  have hrow : ∀ v, v ≠ s.nodeid →
      tableGet (update_helper N cost s).1.dist_table v d = tableGet s.dist_table v d :=
    fun v hv => tableGet_congr_row _ _ v d (update_helper_row_ne N cost s v hv)
  have hboundall : ∀ v, v < N →
      tableGet (update_helper N cost s).1.dist_table s.nodeid d
        ≤ get_link_cost cost v + tableGet (update_helper N cost s).1.dist_table v d := by
    intro v hv
    by_cases hvn : v = s.nodeid
    · rw [hvn, hval]
      exact cost_le_add_left hnn
    · rw [hrow v hvn, hval]
      exact scanMin_le_mem cost s.dist_table s.nodeid d (List.range N) ⊤ none v
        (List.mem_range.mpr hv) hvn
  constructor
  · refine le_antisymm ?_ ?_
    · unfold colMin
      refine le_foldr_min _ _ ?_
      intro x hx
      rcases List.mem_map.mp hx with ⟨u, hu, hux⟩
      rw [← hux]
      exact hboundall u (List.mem_range.mp hu)
    · rcases scanMin_achieve cost s.dist_table s.nodeid d hnn (List.range N) ⊤ none with
        ⟨hm, _⟩ | ⟨v, l1, l2, hsplit, hvne, _, hgv, _, _⟩
      · rw [hval, hm]
        exact le_top
      · have hvN : v < N := List.mem_range.mp (by
          rw [hsplit]; exact List.mem_append_right _ (List.mem_cons_self _ _))
        have hterm : get_link_cost cost v
            + tableGet (update_helper N cost s).1.dist_table v d
            = tableGet (update_helper N cost s).1.dist_table s.nodeid d := by
          rw [hrow v hvne, hval]
          exact hgv
        unfold colMin
        refine le_trans (foldr_min_le _ _ ?_) (le_of_eq hterm)
        exact List.mem_map.mpr ⟨v, List.mem_range.mpr hvN, rfl⟩
  · intro hfin
    rcases scanMin_achieve cost s.dist_table s.nodeid d hnn (List.range N) ⊤ none with
      ⟨hm, _⟩ | ⟨v, l1, l2, hsplit, hvne, hw, hgv, _, _⟩
    · exact absurd (hval.trans hm) hfin
    · have hvN : v < N := List.mem_range.mp (by
        rw [hsplit]; exact List.mem_append_right _ (List.mem_cons_self _ _))
      refine ⟨v, hvN, hvne, ?_, ?_⟩
      · rw [hpred, hw]
        rfl
      · rw [hrow v hvne, hval]
        exact hgv

/-- Predecessor characterisation of `update_helper`: when the recomputed
entry is infinite the predecessor entry is left untouched; when it is
finite the predecessor is the smallest candidate `v ≠ nodeid` achieving it
(ties are not overwritten because the loop uses a strict comparison). -/
lemma update_helper_pred_char (N : ℕ) (cost : List Cost) (s : Node)
    (h1 : s.nodeid < N) (h2 : s.dist_table.length = N)
    (h3 : (s.dist_table.getD s.nodeid []).length = N)
    (h4 : s.predecessors.length = N)
    (hnn : 0 ≤ get_link_cost cost s.nodeid)
    (d : ℕ) (hd : d < N) (hdn : d ≠ s.nodeid) :
    (tableGet (update_helper N cost s).1.dist_table s.nodeid d = ⊤ →
      (update_helper N cost s).1.predecessors.getD d none
        = s.predecessors.getD d none) ∧
    (tableGet (update_helper N cost s).1.dist_table s.nodeid d ≠ ⊤ →
      ∃ w, w < N ∧ w ≠ s.nodeid ∧
        (update_helper N cost s).1.predecessors.getD d none = some w ∧
        get_link_cost cost w + tableGet (update_helper N cost s).1.dist_table w d
          = tableGet (update_helper N cost s).1.dist_table s.nodeid d ∧
        ∀ v, v < w → v ≠ s.nodeid →
          tableGet (update_helper N cost s).1.dist_table s.nodeid d
            < get_link_cost cost v + tableGet (update_helper N cost s).1.dist_table v d) := by
  rcases update_helper_entry N cost s h1 h2 h3 h4 d hd hdn with ⟨hval, hpred⟩
  have hrow : ∀ v, v ≠ s.nodeid →
      tableGet (update_helper N cost s).1.dist_table v d = tableGet s.dist_table v d :=
    fun v hv => tableGet_congr_row _ _ v d (update_helper_row_ne N cost s v hv)
  constructor
  · intro htop
    rcases scanMin_achieve cost s.dist_table s.nodeid d hnn (List.range N) ⊤ none with
      ⟨_, hw⟩ | ⟨v, l1, l2, hsplit, hvne, hw, hgv, hlt, hmin⟩
    · rw [hpred, hw]
      rfl
    · exfalso
      rw [hval] at htop
      rw [htop] at hlt
      exact lt_irrefl ⊤ hlt
  · intro hfin
    rcases scanMin_achieve cost s.dist_table s.nodeid d hnn (List.range N) ⊤ none with
      ⟨hm, _⟩ | ⟨v, l1, l2, hsplit, hvne, hw, hgv, _, hmin⟩
    · exact absurd (hval.trans hm) hfin
    · have hvN : v < N := List.mem_range.mp (by
        rw [hsplit]; exact List.mem_append_right _ (List.mem_cons_self _ _))
      refine ⟨v, hvN, hvne, by rw [hpred, hw]; rfl, by rw [hrow v hvne, hval]; exact hgv, ?_⟩
      intro u hu hune
      rw [hrow u hune, hval]
      exact hmin u (mem_left_of_range_split N v l1 l2 hsplit u hu) hune

/-! ### bcast lemmas -/

lemma mem_bcast (N nodeid : ℕ) (cost vec : List Cost) (p : Packet) :
    p ∈ bcast N nodeid cost vec ↔
      ∃ i, i < N ∧ i ≠ nodeid ∧ get_link_cost cost i ≠ ⊤ ∧
        p = { src := nodeid, dest := i, vec := vec } := by
  unfold bcast
  rw [List.mem_filterMap]
  constructor
  · rintro ⟨i, hmem, hf⟩
    by_cases hcond : i ≠ nodeid ∧ get_link_cost cost i ≠ ⊤
    · rw [if_pos hcond] at hf
      exact ⟨i, List.mem_range.mp hmem, hcond.1, hcond.2, (Option.some_inj.mp hf).symm⟩
    · rw [if_neg hcond] at hf
      exact absurd hf (by simp)
  · rintro ⟨i, hiN, hin, hic, rfl⟩
    exact ⟨i, List.mem_range.mpr hiN, by rw [if_pos ⟨hin, hic⟩]⟩

lemma count_bcast_aux (nodeid : ℕ) (cost vec : List Cost) (j : ℕ) :
    ∀ (l : List ℕ), l.Nodup →
      ((l.filterMap (fun i =>
          if i ≠ nodeid ∧ get_link_cost cost i ≠ ⊤ then
            some ({ src := nodeid, dest := i, vec := vec } : Packet)
          else none)).map (fun p => p.dest)).count j
      = if j ∈ l ∧ j ≠ nodeid ∧ get_link_cost cost j ≠ ⊤ then 1 else 0 := by
  intro l
  induction l with
  | nil =>
    intro _
    rw [if_neg (fun hh => List.not_mem_nil j hh.1)]
    rfl
  | cons i l2 ih =>
    intro hnd
    rcases List.nodup_cons.mp hnd with ⟨hni, hnd2⟩
    by_cases hc : i ≠ nodeid ∧ get_link_cost cost i ≠ ⊤
    · simp only [List.filterMap_cons, if_pos hc, List.map_cons]
      rw [List.count_cons, ih hnd2]
      by_cases hij : j = i
      · subst hij
        rw [if_neg (fun hh => hni hh.1)]
        simp [hc]
      · rw [if_neg (show ¬ ((i == j) = true) by simp [Ne.symm hij])]
        by_cases hjm : j ∈ l2 ∧ j ≠ nodeid ∧ get_link_cost cost j ≠ ⊤
        · rw [if_pos hjm, if_pos ⟨List.mem_cons_of_mem i hjm.1, hjm.2⟩]
        · rw [if_neg hjm,
            if_neg (fun hh => hjm ⟨(List.mem_cons.mp hh.1).resolve_left hij, hh.2⟩)]
    · simp only [List.filterMap_cons, if_neg hc]
      rw [ih hnd2]
      by_cases hij : j = i
      · subst hij
        rw [if_neg (fun hh => hc hh.2), if_neg (fun hh => hc hh.2)]
      · by_cases hjm : j ∈ l2 ∧ j ≠ nodeid ∧ get_link_cost cost j ≠ ⊤
        · rw [if_pos hjm, if_pos ⟨List.mem_cons_of_mem i hjm.1, hjm.2⟩]
        · rw [if_neg hjm,
            if_neg (fun hh => hjm ⟨(List.mem_cons.mp hh.1).resolve_left hij, hh.2⟩)]

lemma count_bcast_dest (N nodeid : ℕ) (cost vec : List Cost) (j : ℕ)
    (hj : j < N) (hjn : j ≠ nodeid) (hjc : get_link_cost cost j ≠ ⊤) :
    ((bcast N nodeid cost vec).map (fun p => p.dest)).count j = 1 := by
  unfold bcast
  rw [count_bcast_aux nodeid cost vec j (List.range N) (List.nodup_range N),
    if_pos ⟨List.mem_range.mpr hj, hjn, hjc⟩]

/-! ### node_init lemmas -/

lemma node_init_nodeid (N nodeid : ℕ) (cost : List Cost) :
    (node_init N nodeid cost).1.nodeid = nodeid := rfl

lemma node_init_sends (N nodeid : ℕ) (cost : List Cost) :
    (node_init N nodeid cost).2 = bcast N nodeid cost cost := rfl

lemma node_init_table_self (N nodeid : ℕ) (cost : List Cost) (hn : nodeid < N) :
    (node_init N nodeid cost).1.dist_table.getD nodeid [] = cost := by
  show ((List.replicate N (List.replicate N (⊤ : Cost))).set nodeid cost).getD nodeid [] = cost
  exact getD_set_self _ nodeid (by rw [List.length_replicate]; exact hn) _ _

lemma node_init_table_ne (N nodeid : ℕ) (cost : List Cost) (r : ℕ)
    (hr : r ≠ nodeid) (hrN : r < N) :
    (node_init N nodeid cost).1.dist_table.getD r [] = List.replicate N ⊤ := by
  show ((List.replicate N (List.replicate N (⊤ : Cost))).set nodeid cost).getD r [] = _
  rw [getD_set_ne _ nodeid r (fun hh => hr hh.symm), getD_replicate_lt N r hrN]

lemma foldl_predInit (nodeid : ℕ) (cost : List Cost) :
    ∀ (l : List ℕ), l.Nodup → ∀ (p : List (Option ℕ)) (j : ℕ), j < p.length →
      (l.foldl (fun p2 i =>
          if i ≠ nodeid ∧ get_link_cost cost i ≠ ⊤ then p2.set i (some i) else p2)
        p).getD j none
      = if j ∈ l ∧ j ≠ nodeid ∧ get_link_cost cost j ≠ ⊤ then some j
        else p.getD j none := by
  intro l
  induction l with
  | nil =>
    intro _ p j hj
    rw [if_neg (fun hh => List.not_mem_nil j hh.1)]
    rfl
  | cons i l2 ih =>
    intro hnd p j hj
    rcases List.nodup_cons.mp hnd with ⟨hni, hnd2⟩
    rw [List.foldl_cons]
    by_cases hci : i ≠ nodeid ∧ get_link_cost cost i ≠ ⊤
    · rw [if_pos hci]
      rw [ih hnd2 (p.set i (some i)) j (by rw [List.length_set]; exact hj)]
      by_cases hij : j = i
      · subst hij
        have hjl2 : j ∉ l2 := hni
        rw [if_neg (fun hh => hjl2 hh.1), if_pos ⟨List.mem_cons_self j l2, hci⟩]
        exact getD_set_self p j hj _ _
      · rw [getD_set_ne p i j (fun hh => hij hh.symm)]
        by_cases hjm : j ∈ l2 ∧ j ≠ nodeid ∧ get_link_cost cost j ≠ ⊤
        · rw [if_pos hjm, if_pos ⟨List.mem_cons_of_mem i hjm.1, hjm.2⟩]
        · rw [if_neg hjm, if_neg (fun hh => hjm ⟨(List.mem_cons.mp hh.1).resolve_left hij, hh.2⟩)]
    · rw [if_neg hci]
      rw [ih hnd2 p j hj]
      by_cases hij : j = i
      · subst hij
        rw [if_neg (fun hh => hci hh.2), if_neg (fun hh => hci hh.2)]
      · by_cases hjm : j ∈ l2 ∧ j ≠ nodeid ∧ get_link_cost cost j ≠ ⊤
        · rw [if_pos hjm, if_pos ⟨List.mem_cons_of_mem i hjm.1, hjm.2⟩]
        · rw [if_neg hjm, if_neg (fun hh => hjm ⟨(List.mem_cons.mp hh.1).resolve_left hij, hh.2⟩)]

lemma node_init_pred_length (N nodeid : ℕ) (cost : List Cost) :
    (node_init N nodeid cost).1.predecessors.length = N := by
  show ((List.range N).foldl _ (List.replicate N (none : Option ℕ))).length = N
  refine foldl_inv (fun (x : List (Option ℕ)) => x.length = N) _ (List.range N)
    (fun b a _ hb => ?_) _ (List.length_replicate N none)
  by_cases hc : a ≠ nodeid ∧ get_link_cost cost a ≠ ⊤
  · show (if a ≠ nodeid ∧ get_link_cost cost a ≠ ⊤ then b.set a (some a) else b).length = N
    rw [if_pos hc, List.length_set]
    exact hb
  · show (if a ≠ nodeid ∧ get_link_cost cost a ≠ ⊤ then b.set a (some a) else b).length = N
    rw [if_neg hc]
    exact hb

lemma node_init_pred_getD (N nodeid : ℕ) (cost : List Cost) (j : ℕ) :
    (node_init N nodeid cost).1.predecessors.getD j none
      = if j < N ∧ j ≠ nodeid ∧ get_link_cost cost j ≠ ⊤ then some j else none := by
  by_cases hjN : j < N
  · show ((List.range N).foldl _ (List.replicate N (none : Option ℕ))).getD j none = _
    rw [foldl_predInit nodeid cost (List.range N) (List.nodup_range N)
      (List.replicate N none) j (by rw [List.length_replicate]; exact hjN)]
    by_cases hc : j ≠ nodeid ∧ get_link_cost cost j ≠ ⊤
    · rw [if_pos ⟨List.mem_range.mpr hjN, hc⟩, if_pos ⟨hjN, hc⟩]
    · rw [if_neg (fun hh => hc hh.2), if_neg (fun hh => hc hh.2),
        getD_replicate N j (none : Option ℕ)]
  · rw [if_neg (fun hh => hjN hh.1)]
    exact getD_of_le _ j (by rw [node_init_pred_length]; omega) none

lemma node_init_table_length (N nodeid : ℕ) (cost : List Cost) :
    (node_init N nodeid cost).1.dist_table.length = N := by
  show ((List.replicate N (List.replicate N (⊤ : Cost))).set nodeid cost).length = N
  rw [List.length_set, List.length_replicate]

/-! ### runEvents lemmas -/

lemma runEvents_go (N : ℕ) :
    ∀ (evs : List Event) (s : Node) (acc : List Packet),
      evs.foldl (fun acc2 e =>
          ((applyEvent N acc2.1 e).1, acc2.2 ++ (applyEvent N acc2.1 e).2)) (s, acc)
        = ((runEvents N s evs).1, acc ++ (runEvents N s evs).2) := by
  intro evs
  induction evs with
  | nil =>
    intro s acc
    show (s, acc) = (s, acc ++ [])
    rw [List.append_nil]
  | cons e evs ih =>
    intro s acc
    rw [List.foldl_cons]
    rw [ih (applyEvent N s e).1 (acc ++ (applyEvent N s e).2)]
    have hrhs : runEvents N s (e :: evs)
        = ((runEvents N (applyEvent N s e).1 evs).1,
           (applyEvent N s e).2 ++ (runEvents N (applyEvent N s e).1 evs).2) := by
      show (e :: evs).foldl _ (s, []) = _
      rw [List.foldl_cons]
      have := ih (applyEvent N s e).1 ([] ++ (applyEvent N s e).2)
      rw [List.nil_append] at this
      exact this
    rw [hrhs, List.append_assoc]

lemma runEvents_cons (N : ℕ) (s : Node) (e : Event) (evs : List Event) :
    runEvents N s (e :: evs)
      = ((runEvents N (applyEvent N s e).1 evs).1,
         (applyEvent N s e).2 ++ (runEvents N (applyEvent N s e).1 evs).2) := by
  show (e :: evs).foldl _ (s, []) = _
  rw [List.foldl_cons]
  have := runEvents_go N evs (applyEvent N s e).1 ([] ++ (applyEvent N s e).2)
  rw [List.nil_append] at this
  exact this

lemma runEvents_append (N : ℕ) (s : Node) (evs1 evs2 : List Event) :
    runEvents N s (evs1 ++ evs2)
      = ((runEvents N (runEvents N s evs1).1 evs2).1,
         (runEvents N s evs1).2 ++ (runEvents N (runEvents N s evs1).1 evs2).2) := by
  show (evs1 ++ evs2).foldl _ (s, []) = _
  rw [List.foldl_append]
  have h1 : evs1.foldl (fun acc2 e =>
      ((applyEvent N acc2.1 e).1, acc2.2 ++ (applyEvent N acc2.1 e).2)) (s, [])
      = ((runEvents N s evs1).1, (runEvents N s evs1).2) := by
    have := runEvents_go N evs1 s []
    rw [List.nil_append] at this
    exact this
  rw [h1]
  exact runEvents_go N evs2 (runEvents N s evs1).1 (runEvents N s evs1).2

/-! ### The I1 invariant (own self-distance is never touched) -/

/-- Well-formedness plus Invariant I1, preserved by every entry point. -/
def goodState (N nodeid : ℕ) (s : Node) : Prop :=
  s.nodeid = nodeid ∧ s.nodeid < N ∧ s.dist_table.length = N ∧
  (s.dist_table.getD s.nodeid []).length = N ∧ s.predecessors.length = N ∧
  tableGet s.dist_table s.nodeid s.nodeid = 0

lemma goodState_update_helper (N nodeid : ℕ) (cost : List Cost) (s : Node)
    (hg : goodState N nodeid s) : goodState N nodeid (update_helper N cost s).1 := by
  rcases hg with ⟨g1, g2, g3, g4, g5, g6⟩
  rcases update_helper_lengths N cost s with ⟨e1, e2, e3⟩
  refine ⟨(update_helper_nodeid N cost s).trans g1, ?_, ?_, ?_, ?_, ?_⟩
  · rw [update_helper_nodeid]; exact g2
  · rw [e1]; exact g3
  · rw [update_helper_nodeid, e2]; exact g4
  · rw [e3]; exact g5
  · rw [update_helper_nodeid, (update_helper_keep_self N cost s).1]; exact g6

lemma goodState_update (N nodeid : ℕ) (cost : List Cost) (s : Node)
    (src : ℕ) (vector : List Cost) (hsrc : src ≠ nodeid)
    (hg : goodState N nodeid s) :
    goodState N nodeid (update N cost s src vector).1 := by
  unfold update
  split
  · exact hg
  · refine goodState_update_helper N nodeid cost _ ?_
    rcases hg with ⟨g1, g2, g3, g4, g5, g6⟩
    have hsrc2 : src ≠ s.nodeid := by rw [g1]; exact hsrc
    have hrow : (s.dist_table.set src vector).getD s.nodeid []
        = s.dist_table.getD s.nodeid [] :=
      getD_set_ne _ src s.nodeid hsrc2 _ _
    refine ⟨g1, g2, by rw [List.length_set]; exact g3, ?_, g5, ?_⟩
    · show ((s.dist_table.set src vector).getD s.nodeid []).length = N
      rw [hrow]; exact g4
    · show tableGet (s.dist_table.set src vector) s.nodeid s.nodeid = 0
      rw [tableGet_congr_row _ s.dist_table s.nodeid s.nodeid hrow]
      exact g6

lemma goodState_applyEvent (N nodeid : ℕ) (s : Node) (e : Event)
    (he : eventOK nodeid e) (hg : goodState N nodeid s) :
    goodState N nodeid (applyEvent N s e).1 := by
  cases e with
  | recv cost src vector => exact goodState_update N nodeid cost s src vector he hg
  | linkChange cost w c => exact goodState_update_helper N nodeid cost s hg

lemma goodState_runEvents (N nodeid : ℕ) :
    ∀ (evs : List Event) (s : Node), (∀ e ∈ evs, eventOK nodeid e) →
      goodState N nodeid s → goodState N nodeid (runEvents N s evs).1 := by
  intro evs
  induction evs with
  | nil => intro s _ hg; exact hg
  | cons e evs ih =>
    intro s he hg
    rw [runEvents_cons]
    exact ih (applyEvent N s e).1 (fun e2 he2 => he e2 (List.mem_cons_of_mem e he2))
      (goodState_applyEvent N nodeid s e (he e (List.mem_cons_self e evs)) hg)

lemma goodState_node_init (N nodeid : ℕ) (cost : List Cost)
    (hn : nodeid < N) (hlen : cost.length = N)
    (hzero : get_link_cost cost nodeid = 0) :
    goodState N nodeid (node_init N nodeid cost).1 := by
  refine ⟨rfl, hn, node_init_table_length N nodeid cost, ?_, node_init_pred_length N nodeid cost, ?_⟩
  · show ((node_init N nodeid cost).1.dist_table.getD (node_init N nodeid cost).1.nodeid []).length = N
    rw [node_init_nodeid, node_init_table_self N nodeid cost hn]
    exact hlen
  · show tableGet (node_init N nodeid cost).1.dist_table (node_init N nodeid cost).1.nodeid
      (node_init N nodeid cost).1.nodeid = 0
    rw [node_init_nodeid]
    unfold tableGet
    rw [node_init_table_self N nodeid cost hn]
    exact hzero

/-! ### Python-semantics lemma for out-of-range sources -/

lemma updatePy_src_out_of_range (N : ℕ) (cost : List Cost) (s : Node)
    (src : ℤ) (vector : List Cost) (h : (s.dist_table.length : ℤ) ≤ src) :
    updatePy N cost s src vector = none := by
  unfold updatePy pyGet pyIdx
  have h0 : (0 : ℤ) ≤ src := le_trans (Int.natCast_nonneg _) h
  rw [if_pos h0, if_neg (not_lt.mpr h)]
  rfl

/-! ### Claim-level helper lemmas -/

lemma invariantAt_update_helper (N : ℕ) (cost : List Cost) (s : Node)
    (h1 : s.nodeid < N) (h2 : s.dist_table.length = N)
    (h3 : (s.dist_table.getD s.nodeid []).length = N)
    (h4 : s.predecessors.length = N)
    (hnn : 0 ≤ get_link_cost cost s.nodeid)
    (d : ℕ) (hd : d < N) (hdn : d ≠ s.nodeid) :
    invariantAt N cost (update_helper N cost s).1 d := by
  rcases update_helper_fixed_point N cost s h1 h2 h3 h4 hnn d hd hdn with ⟨hval, hpred⟩
  unfold invariantAt
  rw [update_helper_nodeid]
  refine ⟨hval, ?_⟩
  intro hfin
  rcases hpred hfin with ⟨w, hwN, hwne, hw, hsum⟩
  exact ⟨w, hwN, hwne, hw, hsum⟩

lemma update_helper_row_src (N : ℕ) (cost : List Cost) (s : Node)
    (src : ℕ) (vector : List Cost) (hsrc : src ≠ s.nodeid)
    (hlen : src < s.dist_table.length) :
    (update_helper N cost
        { s with dist_table := s.dist_table.set src vector }).1.dist_table.getD src []
      = vector := by
  have hne : src ≠ ({ s with dist_table := s.dist_table.set src vector } : Node).nodeid := hsrc
  rw [update_helper_row_ne N cost _ src hne]
  exact getD_set_self s.dist_table src hlen vector []

/-! ## The claims -/

/-- C1 (corrected), counterexample: immediately after construction of node 0
of a 2-node network with link costs `[0, 1]`, the own entry for destination 1
is the finite cost 1 and `predecessors[1] = 1`, yet
`link_cost(1) + table[1][1] = 1 + inf = inf` is not equal to `table[0][1]`:
the predecessor does not achieve the minimum of Invariant I2, so the claim
fails at the construction entry point. -/
theorem C1_counterexample :
    get_predecessor (node_init 2 0 [0, 1]).1 1 = some 1 ∧
    tableGet (node_init 2 0 [0, 1]).1.dist_table 0 1 = (1 : Cost) ∧
    get_link_cost [0, 1] 1 + tableGet (node_init 2 0 [0, 1]).1.dist_table 1 1
      ≠ tableGet (node_init 2 0 [0, 1]).1.dist_table 0 1 := by decide

/-- C1 (amended): after OnAdvertisementReceived with a changed vector and
after OnLinkCostChanged, every destination `d ≠ id` satisfies Invariant I2
(the own entry equals the minimum over all `v` of
`link_cost(v) + table[v][d]` against the resulting table) together with I3
(a finite entry's predecessor achieves that minimum); after construction
only the table equality of I2 holds — `predecessor[j]` is initialised to
`j`, which need not achieve the minimum because row `j` is still
all-infinite. -/
theorem C1_relaxation_invariant (N : ℕ) (cost : List Cost) (s : Node)
    (h1 : s.nodeid < N) (h2 : s.dist_table.length = N)
    (h3 : (s.dist_table.getD s.nodeid []).length = N)
    (h4 : s.predecessors.length = N)
    (hnn : 0 ≤ get_link_cost cost s.nodeid) :
    (∀ src vector, src ≠ s.nodeid → s.dist_table.getD src [] ≠ vector →
      ∀ d, d < N → d ≠ s.nodeid →
        invariantAt N cost (update N cost s src vector).1 d) ∧
    (∀ which_link2 new_cost2 d, d < N → d ≠ s.nodeid →
      invariantAt N cost (link_cost_change_handler N cost s which_link2 new_cost2).1 d) ∧
    (∀ (nodeid2 : ℕ) (cost0 : List Cost), nodeid2 < N → cost0.length = N →
      get_link_cost cost0 nodeid2 = 0 →
      ∀ d, d < N → d ≠ nodeid2 →
        tableGet (node_init N nodeid2 cost0).1.dist_table nodeid2 d
          = colMin N cost0 (node_init N nodeid2 cost0).1.dist_table d) := by
  refine ⟨?_, ?_, ?_⟩
  · intro src vector hsrc hchanged d hd hdn
    unfold update
    rw [if_neg hchanged]
    refine invariantAt_update_helper N cost
      { s with dist_table := s.dist_table.set src vector } h1 ?_ ?_ h4 hnn d hd hdn
    · show (s.dist_table.set src vector).length = N
      rw [List.length_set]; exact h2
    · show ((s.dist_table.set src vector).getD s.nodeid []).length = N
      rw [getD_set_ne s.dist_table src s.nodeid hsrc]; exact h3
  · intro wl nc d hd hdn
    exact invariantAt_update_helper N cost s h1 h2 h3 h4 hnn d hd hdn
  · intro nodeid2 cost0 hn2 hlen2 hz2 d hd hdn
    have hself : tableGet (node_init N nodeid2 cost0).1.dist_table nodeid2 d
        = cost0.getD d ⊤ := by
      unfold tableGet
      rw [node_init_table_self N nodeid2 cost0 hn2]
    have hother : ∀ v, v < N → v ≠ nodeid2 →
        tableGet (node_init N nodeid2 cost0).1.dist_table v d = ⊤ := by
      intro v hv hvne
      unfold tableGet
      rw [node_init_table_ne N nodeid2 cost0 v hvne hv, getD_replicate]
    rw [hself]
    refine le_antisymm ?_ ?_
    · unfold colMin
      refine le_foldr_min _ _ ?_
      intro x hx
      rcases List.mem_map.mp hx with ⟨u, hu, hux⟩
      rw [← hux]
      by_cases hun : u = nodeid2
      · rw [hun, hz2, hself, zero_add]
      · rw [hother u (List.mem_range.mp hu) hun, add_top]
        exact le_top
    · unfold colMin
      refine le_trans (foldr_min_le _
        (get_link_cost cost0 nodeid2
          + tableGet (node_init N nodeid2 cost0).1.dist_table nodeid2 d) ?_) ?_
      · exact List.mem_map.mpr ⟨nodeid2, List.mem_range.mpr hn2, rfl⟩
      · rw [hz2, hself, zero_add]

/-- C1 witness: the amended invariant instantiated on a concrete
link-cost-change trigger of a freshly constructed 2-node network. -/
theorem C1_relaxation_invariant_witness :
    invariantAt 2 [0, 1]
      (link_cost_change_handler 2 [0, 1] (node_init 2 0 [0, 1]).1 0 0).1 1 :=
  (C1_relaxation_invariant 2 [0, 1] (node_init 2 0 [0, 1]).1 (by decide) (by decide)
    (by decide) (by decide) (by decide)).2.1 0 0 1 (by decide) (by decide)

/-- C2 (confirmed): construction leaves every row other than the own row
all-infinite, seeds the own row from the cost row (so entry id is 0 when
`linkCosts[id] = 0`), sets `predecessor[j] = j` exactly for neighbours
(`j ≠ id`, finite cost) and leaves every other predecessor unset, and sends
exactly one Advertisement `(id, j, table[id])` to each neighbour `j` and
nothing to anyone else. -/
theorem C2_construct (N nodeid : ℕ) (cost : List Cost)
    (h1 : nodeid < N) (h2 : cost.length = N) :
    (∀ r, r < N → r ≠ nodeid →
      (node_init N nodeid cost).1.dist_table.getD r [] = List.replicate N ⊤) ∧
    (node_init N nodeid cost).1.dist_table.getD nodeid [] = cost ∧
    (∀ j, j ≠ nodeid → get_link_cost cost j ≠ ⊤ →
      get_predecessor (node_init N nodeid cost).1 j = some j) ∧
    (∀ j, j = nodeid ∨ get_link_cost cost j = ⊤ →
      get_predecessor (node_init N nodeid cost).1 j = none) ∧
    (∀ p ∈ (node_init N nodeid cost).2,
      p.src = nodeid ∧ p.vec = cost ∧ p.dest ≠ nodeid ∧
      p.dest < N ∧ get_link_cost cost p.dest ≠ ⊤) ∧
    (∀ j, j ≠ nodeid → get_link_cost cost j ≠ ⊤ →
      (((node_init N nodeid cost).2).map (fun p => p.dest)).count j = 1) := by
  have hjN : ∀ j, get_link_cost cost j ≠ ⊤ → j < N := by
    intro j hj
    by_contra hge
    exact hj (getD_of_le cost j (by omega) ⊤)
  refine ⟨?_, node_init_table_self N nodeid cost h1, ?_, ?_, ?_, ?_⟩
  · intro r hr hrn
    exact node_init_table_ne N nodeid cost r hrn hr
  · intro j hjn hjc
    show (node_init N nodeid cost).1.predecessors.getD j none = some j
    rw [node_init_pred_getD]
    exact if_pos ⟨hjN j hjc, hjn, hjc⟩
  · intro j hj
    show (node_init N nodeid cost).1.predecessors.getD j none = none
    rw [node_init_pred_getD]
    refine if_neg (fun hh => ?_)
    rcases hj with h | h
    · exact hh.2.1 h
    · exact hh.2.2 h
  · intro p hp
    rw [node_init_sends] at hp
    rcases (mem_bcast N nodeid cost cost p).mp hp with ⟨i, hiN, hin, hic, rfl⟩
    exact ⟨rfl, rfl, hin, hiN, hic⟩
  · intro j hjn hjc
    rw [node_init_sends]
    exact count_bcast_dest N nodeid cost cost j (hjN j hjc) hjn hjc

/-- C2 witness: node 0 of a 2-node network with costs `[0, 1]` sends exactly
one advertisement addressed to its single neighbour 1. -/
theorem C2_construct_witness :
    (((node_init 2 0 [0, 1]).2).map (fun p => p.dest)).count 1 = 1 :=
  (C2_construct 2 0 [0, 1] (by decide) (by decide)).2.2.2.2.2 1 (by decide) (by decide)

/-- C3 (corrected), counterexample: when the link to the only neighbour goes
down (cost row `[0, inf]`), Recompute changes the own row (destination 1
becomes infinite) yet sends nothing, because no neighbour has a finite link
cost — refuting the claimed "sends advertisements if and only if the
recomputed own-row differs". -/
theorem C3_counterexample :
    (link_cost_change_handler 2 [0, ⊤] (node_init 2 0 [0, 1]).1 1 ⊤).2 = [] ∧
    get_dist_vector (link_cost_change_handler 2 [0, ⊤] (node_init 2 0 [0, 1]).1 1 ⊤).1
      ≠ get_dist_vector (node_init 2 0 [0, 1]).1 := by decide

/-- C3 (amended): Recompute sends nothing when the recomputed own row equals
the pre-recompute snapshot; any send implies the row changed; and when the
row changed the sends are exactly one Advertisement
`(id, j, updated own-row)` per node `j ≠ id` with finite `link_cost(j)` —
in particular nothing at all when no link cost is finite. -/
theorem C3_broadcast (N : ℕ) (cost : List Cost) (s : Node)
    (hcost : cost.length = N) :
    (get_dist_vector (update_helper N cost s).1 = get_dist_vector s →
      (update_helper N cost s).2 = []) ∧
    ((update_helper N cost s).2 ≠ [] →
      get_dist_vector (update_helper N cost s).1 ≠ get_dist_vector s) ∧
    (get_dist_vector (update_helper N cost s).1 ≠ get_dist_vector s →
      (∀ p ∈ (update_helper N cost s).2,
        p.src = s.nodeid ∧ p.dest ≠ s.nodeid ∧ get_link_cost cost p.dest ≠ ⊤ ∧
        p.vec = get_dist_vector (update_helper N cost s).1) ∧
      (∀ j, j ≠ s.nodeid → get_link_cost cost j ≠ ⊤ →
        (((update_helper N cost s).2).map (fun p => p.dest)).count j = 1)) := by
  have hgd : get_dist_vector (update_helper N cost s).1
      = (relaxAll N cost s.nodeid (s.dist_table, s.predecessors)).1.getD s.nodeid [] := by
    rw [update_helper_fst]
    rfl
  have hjN : ∀ j, get_link_cost cost j ≠ ⊤ → j < N := by
    intro j hj
    by_contra hge
    exact hj (getD_of_le cost j (by omega) ⊤)
  refine ⟨?_, ?_, ?_⟩
  · intro heq
    rw [update_helper_snd, if_pos (by rw [← hgd]; exact heq.symm)]
  · intro hne heq
    exact hne (by rw [update_helper_snd, if_pos (by rw [← hgd]; exact heq.symm)])
  · intro hchanged
    have hcond : ¬ get_dist_vector s
        = (relaxAll N cost s.nodeid (s.dist_table, s.predecessors)).1.getD s.nodeid [] := by
      rw [← hgd]
      exact fun hh => hchanged hh.symm
    constructor
    · intro p hp
      rw [update_helper_snd, if_neg hcond] at hp
      rcases (mem_bcast N s.nodeid cost _ p).mp hp with ⟨i, hiN, hin, hic, rfl⟩
      exact ⟨rfl, hin, hic, hgd.symm⟩
    · intro j hjn hjc
      rw [update_helper_snd, if_neg hcond]
      exact count_bcast_dest N s.nodeid cost _ j (hjN j hjc) hjn hjc

/-- C3 witness: on a converged 2-node state the recomputed row is unchanged
and Recompute sends nothing. -/
theorem C3_broadcast_witness :
    (update_helper 2 [0, 1]
      { nodeid := 0, dist_table := [[0, 1], [1, 0]], predecessors := [none, some 1] }).2
      = [] :=
  (C3_broadcast 2 [0, 1]
    { nodeid := 0, dist_table := [[0, 1], [1, 0]], predecessors := [none, some 1] }
    (by decide)).1 (by decide)

/-- C4 (confirmed): an advertisement whose vector equals the stored row for
its source is a no-op (state unchanged, nothing sent), and delivering the
same in-contract advertisement twice in a row produces no second broadcast:
the second call hits the receive guard. -/
theorem C4_redundant_no_op (N : ℕ) (cost : List Cost) (s : Node)
    (src : ℕ) (vector : List Cost) :
    (s.dist_table.getD src [] = vector → update N cost s src vector = (s, [])) ∧
    (src ≠ s.nodeid → src < s.dist_table.length →
      update N cost (update N cost s src vector).1 src vector
        = ((update N cost s src vector).1, [])) := by
  constructor
  · intro heq
    unfold update
    rw [if_pos heq]
  · intro hsrc hlen
    by_cases hguard : s.dist_table.getD src [] = vector
    · have h1 : update N cost s src vector = (s, []) := by
        unfold update
        rw [if_pos hguard]
      rw [h1]
      unfold update
      rw [if_pos hguard]
    · have h1 : update N cost s src vector
          = update_helper N cost { s with dist_table := s.dist_table.set src vector } := by
        unfold update
        rw [if_neg hguard]
      rw [h1]
      have hrow := update_helper_row_src N cost s src vector hsrc hlen
      unfold update
      rw [if_pos hrow]

/-- C4 witness: re-delivering the row already stored for source 1 right
after construction is a no-op. -/
theorem C4_redundant_no_op_witness :
    update 2 [0, 1] (node_init 2 0 [0, 1]).1 1 [⊤, ⊤]
      = ((node_init 2 0 [0, 1]).1, []) :=
  (C4_redundant_no_op 2 [0, 1] (node_init 2 0 [0, 1]).1 1 [⊤, ⊤]).1 (by decide)

/-- C5 (confirmed): for a node constructed with `linkCosts[id] = 0`, the own
self-distance `GetDistanceVector()[id]` is 0 immediately after construction
and after any sequence of in-contract triggers (advertisements from other
nodes, link-cost changes under arbitrary cost rows). -/
theorem C5_self_distance (N nodeid : ℕ) (cost0 : List Cost) (evs : List Event)
    (h1 : nodeid < N) (h2 : cost0.length = N)
    (h3 : get_link_cost cost0 nodeid = 0)
    (hevs : ∀ e ∈ evs, eventOK nodeid e) :
    (get_dist_vector (node_init N nodeid cost0).1).getD nodeid ⊤ = 0 ∧
    (get_dist_vector (runEvents N (node_init N nodeid cost0).1 evs).1).getD nodeid ⊤ = 0 := by
  have hinit := goodState_node_init N nodeid cost0 h1 h2 h3
  have hfin := goodState_runEvents N nodeid evs (node_init N nodeid cost0).1 hevs hinit
  constructor
  · have he := hinit.2.2.2.2.2
    rw [hinit.1] at he
    show tableGet (node_init N nodeid cost0).1.dist_table
      (node_init N nodeid cost0).1.nodeid nodeid = 0
    rw [hinit.1]
    exact he
  · have he := hfin.2.2.2.2.2
    rw [hfin.1] at he
    show tableGet (runEvents N (node_init N nodeid cost0).1 evs).1.dist_table
      (runEvents N (node_init N nodeid cost0).1 evs).1.nodeid nodeid = 0
    rw [hfin.1]
    exact he

/-- C5 witness: concrete 2-node run with one received advertisement and one
link-cost change. -/
theorem C5_self_distance_witness :
    (get_dist_vector (runEvents 2 (node_init 2 0 [0, 1]).1
      [Event.recv [0, 1] 1 [1, 0], Event.linkChange [0, 2] 1 2]).1).getD 0 ⊤ = 0 :=
  (C5_self_distance 2 0 [0, 1]
    [Event.recv [0, 1] 1 [1, 0], Event.linkChange [0, 2] 1 2]
    (by decide) (by decide) (by decide) (by decide)).2

/-- C6 (corrected), counterexample: after the link to node 1 goes down, every
candidate `v < 2` ties for the minimum (all sums are infinite, equal to the
recomputed entry), the smallest such `v` is 0, yet `predecessor[1]` is 1:
when the minimum is infinite the loop never writes the predecessor, so the
stale previous value survives instead of the smallest tying candidate. -/
theorem C6_counterexample :
    get_predecessor (update_helper 2 [0, ⊤] (node_init 2 0 [0, 1]).1).1 1 = some 1 ∧
    tableGet (update_helper 2 [0, ⊤] (node_init 2 0 [0, 1]).1).1.dist_table 0 1 = ⊤ ∧
    (∀ v, v < 2 →
      get_link_cost [0, ⊤] v
        + tableGet (update_helper 2 [0, ⊤] (node_init 2 0 [0, 1]).1).1.dist_table v 1
      = tableGet (update_helper 2 [0, ⊤] (node_init 2 0 [0, 1]).1).1.dist_table 0 1) := by
  decide

/-- C6 (amended): Recompute is deterministic (it is a function of the state
and cost row), and for a destination whose recomputed entry is finite the
predecessor is the smallest candidate `v ≠ id` achieving the minimum —
later ties do not overwrite it because the comparison is strict; when the
recomputed entry is infinite the predecessor entry is left unchanged rather
than set to a tying candidate. -/
theorem C6_tiebreak (N : ℕ) (cost : List Cost) (s : Node) (d : ℕ)
    (h1 : s.nodeid < N) (h2 : s.dist_table.length = N)
    (h3 : (s.dist_table.getD s.nodeid []).length = N)
    (h4 : s.predecessors.length = N)
    (hnn : 0 ≤ get_link_cost cost s.nodeid)
    (hd : d < N) (hdn : d ≠ s.nodeid) :
    (∀ s2, s2 = s → update_helper N cost s2 = update_helper N cost s) ∧
    (tableGet (update_helper N cost s).1.dist_table s.nodeid d = ⊤ →
      get_predecessor (update_helper N cost s).1 d = get_predecessor s d) ∧
    (tableGet (update_helper N cost s).1.dist_table s.nodeid d ≠ ⊤ →
      ∃ w, w < N ∧ w ≠ s.nodeid ∧
        get_predecessor (update_helper N cost s).1 d = some w ∧
        get_link_cost cost w + tableGet (update_helper N cost s).1.dist_table w d
          = tableGet (update_helper N cost s).1.dist_table s.nodeid d ∧
        ∀ v, v < w → v ≠ s.nodeid →
          tableGet (update_helper N cost s).1.dist_table s.nodeid d
            < get_link_cost cost v + tableGet (update_helper N cost s).1.dist_table v d) := by
  rcases update_helper_pred_char N cost s h1 h2 h3 h4 hnn d hd hdn with ⟨htop, hfin⟩
  exact ⟨fun s2 hs2 => by rw [hs2], htop, hfin⟩

/-- C6 witness: on a converged 2-node state the finite minimum for
destination 1 is achieved by the unique candidate 1, which is the stored
predecessor. -/
theorem C6_tiebreak_witness :
    ∃ w, w < 2 ∧ w ≠ (0 : ℕ) ∧
      get_predecessor (update_helper 2 [0, 1]
        { nodeid := 0, dist_table := [[0, 1], [1, 0]],
          predecessors := [none, some 1] }).1 1 = some w ∧
      get_link_cost [0, 1] w + tableGet (update_helper 2 [0, 1]
        { nodeid := 0, dist_table := [[0, 1], [1, 0]],
          predecessors := [none, some 1] }).1.dist_table w 1
        = tableGet (update_helper 2 [0, 1]
        { nodeid := 0, dist_table := [[0, 1], [1, 0]],
          predecessors := [none, some 1] }).1.dist_table 0 1 ∧
      ∀ v, v < w → v ≠ (0 : ℕ) →
        tableGet (update_helper 2 [0, 1]
          { nodeid := 0, dist_table := [[0, 1], [1, 0]],
            predecessors := [none, some 1] }).1.dist_table 0 1
          < get_link_cost [0, 1] v + tableGet (update_helper 2 [0, 1]
            { nodeid := 0, dist_table := [[0, 1], [1, 0]],
              predecessors := [none, some 1] }).1.dist_table v 1 :=
  (C6_tiebreak 2 [0, 1]
    { nodeid := 0, dist_table := [[0, 1], [1, 0]], predecessors := [none, some 1] } 1
    (by decide) (by decide) (by decide) (by decide) (by decide) (by decide)
    (by decide)).2.2 (by decide)

/-- C7 (corrected), counterexample: a reachable state (construct node 0 with
costs `[0, 1]`, then the link to node 1 goes down) in which `table[0][1]` is
infinite yet `GetPredecessor(1)` still returns the previously valid
neighbour 1 instead of the unset sentinel. -/
theorem C7_counterexample :
    tableGet (runEvents 2 (node_init 2 0 [0, 1]).1
        [Event.linkChange [0, ⊤] 1 ⊤]).1.dist_table 0 1 = ⊤ ∧
    get_predecessor (runEvents 2 (node_init 2 0 [0, 1]).1
        [Event.linkChange [0, ⊤] 1 ⊤]).1 1 = some 1 := by decide

/-- C7 (amended): immediately after construction every destination
`d ≠ id` with an infinite direct link has an unset predecessor (`none`);
but in later states Recompute leaves `predecessor[d]` untouched whenever
the recomputed entry is infinite, so an unreachable destination may retain
a previously valid neighbour. -/
theorem C7_unreachable_pred (N : ℕ) (cost : List Cost) :
    (∀ nodeid d, d ≠ nodeid → get_link_cost cost d = ⊤ →
      get_predecessor (node_init N nodeid cost).1 d = none) ∧
    (∀ (s : Node) (d : ℕ), s.nodeid < N → s.dist_table.length = N →
      (s.dist_table.getD s.nodeid []).length = N → s.predecessors.length = N →
      0 ≤ get_link_cost cost s.nodeid → d < N → d ≠ s.nodeid →
      tableGet (update_helper N cost s).1.dist_table s.nodeid d = ⊤ →
      get_predecessor (update_helper N cost s).1 d = get_predecessor s d) := by
  constructor
  · intro nodeid d hdn hdc
    show (node_init N nodeid cost).1.predecessors.getD d none = none
    rw [node_init_pred_getD]
    exact if_neg (fun hh => hh.2.2 hdc)
  · intro s d h1 h2 h3 h4 hnn hd hdn htop
    exact (update_helper_pred_char N cost s h1 h2 h3 h4 hnn d hd hdn).1 htop

/-- C7 witness: after constructing node 0 with no link to node 1, the
predecessor of the unreachable destination 1 is the unset sentinel. -/
theorem C7_unreachable_pred_witness :
    get_predecessor (node_init 2 0 [0, ⊤]).1 1 = none :=
  (C7_unreachable_pred 2 [0, ⊤]).1 0 1 (by decide) (by decide)

/-- C8 (corrected), counterexample: delivering an advertisement with source 1
and the over-length vector `[5, 5, 5]` to a freshly constructed 2-node node
does not trap: the receive handler completes and the malformed vector is
silently stored as row 1 of the table, refuting "fail fast and never
silently stored". -/
theorem C8_counterexample :
    (updatePy 2 [0, 1] (node_init 2 0 [0, 1]).1 1 [5, 5, 5]).map
      (fun r => r.1.dist_table.getD 1 []) = some [5, 5, 5] := by decide

/-- C8 (amended): the receive handler performs no validation.  An
out-of-range non-negative source id does fail fast — the initial
`dist_table[src]` access raises IndexError before any write, modelled as
`none` — but a malformed vector is not rejected: an over-length vector is
silently stored into the table (counterexample above). -/
theorem C8_out_of_range_src (N : ℕ) (cost : List Cost) (s : Node)
    (src : ℤ) (vector : List Cost)
    (h : (s.dist_table.length : ℤ) ≤ src) :
    updatePy N cost s src vector = none :=
  updatePy_src_out_of_range N cost s src vector h

/-- C8 witness: source id 7 is out of range for a 2-node table and the
handler traps. -/
theorem C8_out_of_range_src_witness :
    updatePy 2 [0, 1] (node_init 2 0 [0, 1]).1 7 [1, 1] = none :=
  C8_out_of_range_src 2 [0, 1] (node_init 2 0 [0, 1]).1 7 [1, 1] (by decide)

/-- C9 (confirmed, Packet modelled from the spec): every packet emitted by
construction carries the own row at that moment (the cost row), every
packet emitted by Recompute carries the updated own row at send time, and
the send log is append-only — running further events only appends new
packets after the already-sent ones, so no later mutation of the sender's
table alters an already-sent advertisement. -/
theorem C9_snapshot (N : ℕ) :
    (∀ (s : Node) (evs1 evs2 : List Event),
      (runEvents N s (evs1 ++ evs2)).2
        = (runEvents N s evs1).2
          ++ (runEvents N (runEvents N s evs1).1 evs2).2) ∧
    (∀ (cost : List Cost) (s : Node), ∀ p ∈ (update_helper N cost s).2,
      p.vec = get_dist_vector (update_helper N cost s).1) ∧
    (∀ (nodeid : ℕ) (cost : List Cost) (p : Packet), nodeid < N →
      p ∈ (node_init N nodeid cost).2 →
      p.vec = get_dist_vector (node_init N nodeid cost).1) := by
  refine ⟨?_, ?_, ?_⟩
  · intro s evs1 evs2
    rw [runEvents_append]
  · intro cost s p hp
    rw [update_helper_snd] at hp
    by_cases hcond : get_dist_vector s
        = (relaxAll N cost s.nodeid (s.dist_table, s.predecessors)).1.getD s.nodeid []
    · rw [if_pos hcond] at hp
      exact absurd hp (List.not_mem_nil p)
    · rw [if_neg hcond] at hp
      rcases (mem_bcast N s.nodeid cost _ p).mp hp with ⟨i, _, _, _, rfl⟩
      show (relaxAll N cost s.nodeid (s.dist_table, s.predecessors)).1.getD s.nodeid []
        = get_dist_vector (update_helper N cost s).1
      rw [update_helper_fst]
      rfl
  · intro nodeid cost p hn hp
    rw [node_init_sends] at hp
    rcases (mem_bcast N nodeid cost cost p).mp hp with ⟨i, _, _, _, rfl⟩
    show cost = get_dist_vector (node_init N nodeid cost).1
    show cost = (node_init N nodeid cost).1.dist_table.getD (node_init N nodeid cost).1.nodeid []
    rw [node_init_nodeid, node_init_table_self N nodeid cost hn]

/-- C9 witness: the single packet of a concrete construction carries the own
row `[0, 1]` of the constructed node. -/
theorem C9_snapshot_witness :
    (Packet.mk 0 1 [(0 : Cost), 1]).vec = get_dist_vector (node_init 2 0 [0, 1]).1 :=
  (C9_snapshot 2).2.2 0 [0, 1] (Packet.mk 0 1 [(0 : Cost), 1]) (by decide) (by decide)

/-- C10 (confirmed): the link-cost-change handler ignores both of its
arguments — any two argument pairs produce identical resulting state and
identical sends from the same state and cost row — and it always performs
the full recomputation (it is exactly `update_helper`, even when the new
cost equals the old one). -/
theorem C10_link_change_ignores_args (N : ℕ) (cost : List Cost) (s : Node)
    (which_link1 which_link2 : ℕ) (new_cost1 new_cost2 : Cost) :
    link_cost_change_handler N cost s which_link1 new_cost1
      = link_cost_change_handler N cost s which_link2 new_cost2 ∧
    link_cost_change_handler N cost s which_link1 new_cost1
      = update_helper N cost s :=
  ⟨rfl, rfl⟩

end DVNode
